import Mathlib

/-!
Verification development for the SeeMS content-schema inference and codegen
pipeline (packages/converter and packages/editor-overlay).

The TypeScript sources are shallowly embedded:
* HTML documents (cheerio trees) become the inductive type `Node`;
  elements are addressed by `Path` (child-index lists), mirroring cheerio's
  stable node identity for membership sets such as `collectionElements`.
* JavaScript strings become `String`, but every string primitive used by the
  source (`includes`, `startsWith`, `endsWith`, `split`, `replace`,
  `trim`, ...) is re-implemented on `List Char` with JS semantics so that
  proofs can proceed by structural induction.
* JavaScript objects written by key assignment become insertion-ordered
  association lists with an `upsert` write (last write wins, first position
  kept), matching `obj[k] = v` semantics.
-/

namespace SeeMS

/-! ### JS-style string primitives on character lists -/

/-- `isHeadOf pat l` is true iff `pat` is a prefix of `l`. -/
def isHeadOf [DecidableEq α] : List α → List α → Bool
  | [], _ => true
  | _ :: _, [] => false
  | a :: pa, b :: l => if a = b then isHeadOf pa l else false

/-- `isPartOf pat l` is true iff `pat` occurs contiguously inside `l`
(JS `String.prototype.includes`). -/
def isPartOf [DecidableEq α] (pat : List α) : List α → Bool
  | [] => isHeadOf pat []
  | b :: l => isHeadOf pat (b :: l) || isPartOf pat l

/-- JS `s.includes(pat)`. -/
def strIncludes (s pat : String) : Bool := isPartOf pat.data s.data

/-- JS `s.startsWith(pat)`. -/
def strStartsWith (s pat : String) : Bool := isHeadOf pat.data s.data

/-- JS `s.endsWith(pat)`. -/
def strEndsWith (s pat : String) : Bool := isHeadOf pat.data.reverse s.data.reverse

/-- Split on a character predicate, JS `split` style: `splitByP p "" = [""]`,
separators at the ends produce empty pieces. -/
def splitByP (p : Char → Bool) : List Char → List (List Char)
  | [] => [[]]
  | c :: cs =>
    let r := splitByP p cs
    if p c then [] :: r
    else
      match r with
      | [] => [[c]]
      | h :: t => (c :: h) :: t

/-- JS `s.split(sep)` for a single-character separator. -/
def splitCh (sep : Char) (l : List Char) : List (List Char) :=
  splitByP (fun c => c = sep) l

/-- JS `parts.join(sep)` for a single-character separator. -/
def joinSep (sep : Char) : List (List Char) → List Char
  | [] => []
  | [l] => l
  | l :: ls => l ++ sep :: joinSep sep ls

/-- JS `s.split(' ')` as a list of strings. -/
def strSplitSpace (s : String) : List String :=
  (splitCh ' ' s.data).map String.mk

/-- JS `parts.join(' ')`. -/
def strJoinSpace (ls : List String) : String :=
  String.mk (joinSep ' ' (ls.map String.data))

/-- JS `s.replace(pat, repl)` without the `g` flag: first occurrence only. -/
def replaceFirstL [DecidableEq α] (pat repl : List α) : List α → List α
  | [] => if isHeadOf pat [] then repl else []
  | c :: cs =>
    if isHeadOf pat (c :: cs) then repl ++ (c :: cs).drop pat.length
    else c :: replaceFirstL pat repl cs

def strReplaceFirst (s pat repl : String) : String :=
  String.mk (replaceFirstL pat.data repl.data s.data)

/-- Scanner for global replacement: `skip` counts characters still inside
the previous match (so matches never overlap). -/
def replaceAllGo [DecidableEq α] (pat repl : List α) : List α → Nat → List α
  | [], _ => []
  | c :: cs, skip =>
    match skip with
    | n + 1 => replaceAllGo pat repl cs n
    | 0 =>
      if isHeadOf pat (c :: cs) then repl ++ replaceAllGo pat repl cs (pat.length - 1)
      else c :: replaceAllGo pat repl cs 0

/-- JS `s.replace(/pat/g, repl)`: all non-overlapping occurrences, left to
right. An empty pattern leaves the string unchanged (never used on one). -/
def replaceAllL [DecidableEq α] (pat repl : List α) (l : List α) : List α :=
  if pat = [] then l else replaceAllGo pat repl l 0

def strReplaceAll (s pat repl : String) : String :=
  String.mk (replaceAllL pat.data repl.data s.data)

/-- JS whitespace characters that occur in practice. -/
def isWsp (c : Char) : Bool := c = ' ' || c = '\n' || c = '\t' || c = '\r'

/-- JS `s.trim()`. -/
def strTrim (s : String) : String :=
  String.mk (((s.data.dropWhile isWsp).reverse.dropWhile isWsp).reverse)

/-- JS `s.toLowerCase()` (ASCII). -/
def strToLower (s : String) : String := String.mk (s.data.map Char.toLower)

/-- JS `a || b` on strings: empty string is falsy. -/
def jsOr (a b : String) : String := if a = "" then b else a

/-! ### JS objects as insertion-ordered association lists -/

/-- `obj[k] = v`: overwrite in place if the key exists, else append. -/
def upsert (l : List (String × β)) (k : String) (v : β) : List (String × β) :=
  if l.any (fun e => e.1 = k) then
    l.map (fun e => if e.1 = k then (k, v) else e)
  else l ++ [(k, v)]

/-- Group-by insert: append `v` to the list at key `k`, creating the key at
the end on first sight (JS `Map` + push). -/
def upsertAppend (l : List (String × List β)) (k : String) (v : β) :
    List (String × List β) :=
  if l.any (fun e => e.1 = k) then
    l.map (fun e => if e.1 = k then (e.1, e.2 ++ [v]) else e)
  else l ++ [(k, [v])]

/-- Association-list lookup (first match), as `Record` access. -/
def alookup (l : List (String × β)) (k : String) : Option β :=
  match l.find? (fun e => e.1 = k) with
  | some e => some e.2
  | none => none

/-! ### The parsed HTML tree -/

/-- A cheerio DOM node: an element with a tag, an attribute list and
children, or a text node. -/
inductive Node where
  | elem (tag : String) (attrs : List (String × String)) (children : List Node)
  | text (s : String)

/-- Stable structural identity of a node: the child-index path from the
document root. -/
abbrev Path := List Nat

def attrN (n : Node) (k : String) : Option String :=
  match n with
  | .elem _ attrs _ => alookup attrs k
  | .text _ => none

/-- The element's class tokens (whitespace-separated class attribute). -/
def classListN (n : Node) : List String :=
  match attrN n "class" with
  | some s => strSplitSpace s
  | none => []

def hasClass (n : Node) (c : String) : Bool :=
  (classListN n).any (fun x => x == c)

/-- HTML tag matching: the DOM side is lowercased (as parse5/css-select do);
the selector side is written pre-lowercased in this embedding. -/
def isTag (n : Node) (sel : String) : Bool :=
  match n with
  | .elem t _ _ => strToLower t == sel
  | .text _ => false

mutual
/-- Concatenated text of all descendant text nodes (cheerio `.text()`). -/
def textContent : Node → String
  | .text s => s
  | .elem _ _ cs => textContentL cs
def textContentL : List Node → String
  | [] => ""
  | c :: cs => textContent c ++ textContentL cs
end

mutual
/-- Preorder traversal of all elements (not text nodes) of a subtree,
paired with their paths; `p` is the path of the subtree root. -/
def elemsAt (p : Path) : Node → List (Path × Node)
  | .text _ => []
  | .elem t a cs => (p, .elem t a cs) :: elemsAtL p 0 cs
def elemsAtL (p : Path) (i : Nat) : List Node → List (Path × Node)
  | [] => []
  | c :: cs => elemsAt (p ++ [i]) c ++ elemsAtL p (i + 1) cs
end

/-- All elements of the document (the `$('...')` search space). -/
def allElems (root : Node) : List (Path × Node) := elemsAt [] root

/-- Strict descendants of the node `n` located at path `p`
(cheerio `$el.find('*')`). -/
def descOf (p : Path) (n : Node) : List (Path × Node) :=
  match n with
  | .elem _ _ cs => elemsAtL p 0 cs
  | .text _ => []

def nodeAt : Path → Node → Option Node
  | [], n => some n
  | i :: p, .elem _ _ cs =>
    match cs.get? i with
    | some c => nodeAt p c
    | none => none
  | _ :: _, .text _ => none

/-- The prefixes of `p`, longest (the node itself) first. -/
def prefixesDesc (p : Path) : List Path :=
  ((List.range (p.length + 1)).reverse).map (fun k => p.take k)

/-- The node plus its ancestors, nearest first (the search space of
cheerio `closest`), with their paths. -/
def selfAncestors (root : Node) (p : Path) : List (Path × Node) :=
  (prefixesDesc p).filterMap (fun q => (nodeAt q root).map (fun n => (q, n)))

/-- Strict ancestors, nearest first (repeated `$el.parent()`). -/
def strictAncestors (root : Node) (p : Path) : List (Path × Node) :=
  (selfAncestors root p).drop 1

/-- `$el.parent()`: none at the document root. -/
def parentOf (root : Node) (p : Path) : Option Node :=
  match p with
  | [] => none
  | _ :: _ => nodeAt p.dropLast root

def parentClassAttr (root : Node) (p : Path) : Option String :=
  match parentOf root p with
  | some n => attrN n "class"
  | none => none

/-- The selector sublanguage the pipeline emits: `.cls` (class) or a bare
tag name. -/
def selMatches (sel : String) (n : Node) : Bool :=
  match sel.data with
  | '.' :: rest => hasClass n (String.mk rest)
  | _ => isTag n sel

/-- `$(sel)`: every matching element of the document, in document order. -/
def matchesOf (root : Node) (sel : String) : List (Path × Node) :=
  (allElems root).filter (fun pn => selMatches sel pn.2)

/-- `$el.find(sel)` for the element `n` at path `p`. -/
def findDescOf (p : Path) (n : Node) (sel : String) : List (Path × Node) :=
  (descOf p n).filter (fun pn => selMatches sel pn.2)

/-- Direct children with their paths (cheerio `.contents()`, including
text nodes). -/
def contentsOf (p : Path) (n : Node) : List (Path × Node) :=
  match n with
  | .elem _ _ cs => cs.enum.map (fun ic => (p ++ [ic.1], ic.2))
  | .text _ => []

/-- Functional update of the node at `p` (cheerio attribute/content
mutation); a miss is a no-op, like mutating a detached node. -/
def mapAt : Path → (Node → Node) → Node → Node
  | [], f, n => f n
  | i :: p, f, .elem t a cs =>
    .elem t a (cs.enum.map (fun jc => if jc.1 = i then mapAt p f jc.2 else jc.2))
  | _ :: _, _, n => n

mutual
/-- Remove the nodes whose paths are listed (cheerio `.remove()`);
`cur` is the path of the current subtree root. -/
def removeAtPaths (ps : List Path) : Path → Node → Node
  | _, .text s => .text s
  | cur, .elem t a cs => .elem t a (removeAtPathsL ps cur 0 cs)
def removeAtPathsL (ps : List Path) : Path → Nat → List Node → List Node
  | _, _, [] => []
  | cur, i, c :: cs =>
    (if (cur ++ [i]) ∈ ps then [] else [removeAtPaths ps (cur ++ [i]) c]) ++
      removeAtPathsL ps cur (i + 1) cs
end

def setAttrN (n : Node) (k v : String) : Node :=
  match n with
  | .elem t attrs cs => .elem t (upsert attrs k v) cs
  | .text s => .text s

def removeAttrN (n : Node) (k : String) : Node :=
  match n with
  | .elem t attrs cs => .elem t (attrs.filter (fun e => !(e.1 == k))) cs
  | .text s => .text s

/-- `$el.empty(); $el.text(s)`. -/
def setTextN (n : Node) (s : String) : Node :=
  match n with
  | .elem t attrs _ => .elem t attrs [.text s]
  | .text _ => .text s

/-- Well-formedness of a parsed HTML document: parse5 produces nonempty,
already-lowercase tag names, which in particular cannot begin with `.`. -/
def wfElem (n : Node) : Bool :=
  match n with
  | .elem t _ _ => strToLower t == t && t.length > 0 && !(strStartsWith t ".")
  | .text _ => true

def wfTree (root : Node) : Bool :=
  (allElems root).all (fun pn => wfElem pn.2)

/-! ### Manifest data model (packages/types) -/

structure ClassInfo where
  selector : String
  fieldName : String
deriving DecidableEq, Repr

structure FieldMapping where
  selector : String
  type : String
  editable : Bool
  required : Option Bool := none
  defaultVal : Option String := none
deriving DecidableEq, Repr

structure CollectionMapping where
  selector : String
  fields : List (String × String)
deriving DecidableEq, Repr

structure PageManifest where
  fields : List (String × FieldMapping)
  collections : List (String × CollectionMapping)
deriving DecidableEq, Repr

structure CMSManifest where
  version : String
  pages : List (String × PageManifest)
deriving DecidableEq, Repr

/-! ### detector.ts — schema inference -/

/-- `cleanClassName`: drop `c-`/`w-` utility classes, keep the rest. -/
def cleanClassName (className : String) : String :=
  strJoinSpace
    (((strSplitSpace className).filter
        (fun cls => !(strStartsWith cls "c-") && !(strStartsWith cls "w-"))).filter
      (fun cls => cls.length > 0))

/-- `getPrimaryClass`: first surviving class token; the selector keeps the
dashes, the field name replaces them with underscores. -/
def getPrimaryClass (classAttr : Option String) : Option ClassInfo :=
  match classAttr with
  | none => none
  | some ca =>
    let cleaned := cleanClassName ca
    let classes := (strSplitSpace cleaned).filter (fun c => c.length > 0)
    match classes with
    | [] => none
    | original :: _ => some ⟨original, strReplaceAll original "-" "_"⟩

/-- `getContextModifier`: nearest `cc-*` class among up to 5 ancestor
levels, with the prefix stripped and dashes underscored. -/
def getContextModifier (root : Node) (p : Path) : Option String :=
  ((strictAncestors root p).take 5).findSome? (fun qm =>
    match attrN qm.2 "class" with
    | some classes =>
      match (strSplitSpace classes).find? (fun c => strStartsWith c "cc-") with
      | some ccClass =>
        some (strReplaceAll (strReplaceFirst ccClass "cc-" "") "-" "_")
      | none => none
    | none => none)

/-- `isDecorativeImage`: the image's direct parent's class contains one of
the decorative patterns. -/
def decorativePatterns : List String :=
  ["nav", "logo", "icon", "arrow", "button", "quote", "pagination", "footer", "link"]

def isDecorativeImage (root : Node) (p : Path) : Bool :=
  let parentClass := (parentClassAttr root p).getD ""
  decorativePatterns.any (fun pattern =>
    strIncludes parentClass pattern || strIncludes parentClass (pattern ++ "_"))

/-- `isInsideButton`: `$el.closest('button, a, NuxtLink, .c_button,
.c_icon_button')` is nonempty (checks the node itself and its ancestors). -/
def isInsideButton (root : Node) (p : Path) : Bool :=
  (selfAncestors root p).any (fun qm =>
    isTag qm.2 "button" || isTag qm.2 "a" || isTag qm.2 "nuxtlink" ||
      hasClass qm.2 "c_button" || hasClass qm.2 "c_icon_button")

/-- The collection-vocabulary test on a normalized primary class name
(`card`/`item`/`post`/`feature`, excluding `image` and `inner`). -/
def collToken (fieldName : String) : Bool :=
  (strIncludes fieldName "card" || strIncludes fieldName "item" ||
      strIncludes fieldName "post" || strIncludes fieldName "feature") &&
    !(strIncludes fieldName "image") && !(strIncludes fieldName "inner")

/-- Pass 1 grouping: bucket the `[class]` elements whose primary class
passes `collToken`, by normalized class name, in document order. -/
def buildGroups : List (Path × Node) → List (String × List (Path × Node)) →
    List (String × List (Path × Node))
  | [], acc => acc
  | pn :: rest, acc =>
    match getPrimaryClass (attrN pn.2 "class") with
    | some primaryClass =>
      if collToken primaryClass.fieldName then
        buildGroups rest (upsertAppend acc primaryClass.fieldName pn)
      else buildGroups rest acc
    | none => buildGroups rest acc

/-- Mark a collection's members and, for each member, all its descendants
(the `collectionElements` ownership set). -/
def markAll : List (Path × Node) → List Path
  | [] => []
  | pn :: rest => pn.1 :: (descOf pn.1 pn.2).map Prod.fst ++ markAll rest

/-- Collection image field: first non-button image whose parent's class
name contains `image`. -/
def findCollImage (root : Node) (p1 : Path) (n1 : Node) : Option String :=
  ((descOf p1 n1).filter (fun pn => isTag pn.2 "img")).findSome? (fun pn =>
    if isInsideButton root pn.1 then none
    else
      match getPrimaryClass (parentClassAttr root pn.1) with
      | some parentClassInfo =>
        if strIncludes parentClassInfo.fieldName "image" then
          some ("." ++ parentClassInfo.selector)
        else none
      | none => none)

/-- Collection tag field: first `div` whose class name contains `tag` but
not `container`. -/
def findCollTag (p1 : Path) (n1 : Node) : Option String :=
  ((descOf p1 n1).filter (fun pn => isTag pn.2 "div")).findSome? (fun pn =>
    match getPrimaryClass (attrN pn.2 "class") with
    | some classInfo =>
      if strIncludes classInfo.fieldName "tag" &&
          !(strIncludes classInfo.fieldName "container") then
        some ("." ++ classInfo.selector)
      else none
    | none => none)

def isHeadingTag (n : Node) : Bool :=
  isTag n "h1" || isTag n "h2" || isTag n "h3" || isTag n "h4" ||
    isTag n "h5" || isTag n "h6"

/-- Collection title field: the first heading, if it has a class. -/
def findCollTitle (p1 : Path) (n1 : Node) : Option String :=
  match ((descOf p1 n1).filter (fun pn => isHeadingTag pn.2)).head? with
  | some pn =>
    match getPrimaryClass (attrN pn.2 "class") with
    | some classInfo => some ("." ++ classInfo.selector)
    | none => none
  | none => none

/-- Collection description field: the first paragraph, if it has a class. -/
def findCollDescription (p1 : Path) (n1 : Node) : Option String :=
  match ((descOf p1 n1).filter (fun pn => isTag pn.2 "p")).head? with
  | some pn =>
    match getPrimaryClass (attrN pn.2 "class") with
    | some classInfo => some ("." ++ classInfo.selector)
    | none => none
  | none => none

/-- Collection link field: first non-button `a`/`NuxtLink` with nonempty
text; falls back to the bare selector `a` when it has no usable class. -/
def findCollLink (p1 : Path) (n1 : Node) : Option String :=
  ((descOf p1 n1).filter (fun pn =>
      (isTag pn.2 "a" || isTag pn.2 "nuxtlink") &&
        !(hasClass pn.2 "c_button") && !(hasClass pn.2 "c_icon_button"))).findSome?
    (fun pn =>
      let linkText := strTrim (textContent pn.2)
      if linkText ≠ "" then
        match getPrimaryClass (attrN pn.2 "class") with
        | some classInfo => some ("." ++ classInfo.selector)
        | none => some "a"
      else none)

def maybeAdd (l : List (String × String)) (k : String) :
    Option String → List (String × String)
  | some v => l ++ [(k, v)]
  | none => l

/-- The collection's field map, scanned from the first member in source
order: image, tag, title, description, link. -/
def collectFields (root : Node) (p1 : Path) (n1 : Node) : List (String × String) :=
  maybeAdd
    (maybeAdd
      (maybeAdd
        (maybeAdd (maybeAdd [] "image" (findCollImage root p1 n1)) "tag"
          (findCollTag p1 n1))
        "title" (findCollTitle p1 n1))
      "description" (findCollDescription p1 n1))
    "link" (findCollLink p1 n1)

/-- Pass 1 processing: a group with at least 2 members is marked owned;
it becomes a collection (name suffixed with `s` unless already ending in
`s`) when its field map is nonempty. -/
def processGroups (root : Node) :
    List (String × List (Path × Node)) → List (String × CollectionMapping) →
      List Path → List (String × CollectionMapping) × List Path
  | [], colls, owned => (colls, owned)
  | (className, elements) :: rest, colls, owned =>
    if elements.length ≥ 2 then
      let owned' := owned ++ markAll elements
      match elements with
      | [] => processGroups root rest colls owned'
      | (p1, n1) :: _ =>
        let collectionSelector :=
          match getPrimaryClass (attrN n1 "class") with
          | some collectionClassInfo => "." ++ collectionClassInfo.selector
          | none => "." ++ className
        let collectionFields := collectFields root p1 n1
        if collectionFields.isEmpty then processGroups root rest colls owned'
        else
          let collectionName :=
            if strEndsWith className "s" then className else className ++ "s"
          processGroups root rest
            (upsert colls collectionName ⟨collectionSelector, collectionFields⟩)
            owned'
    else processGroups root rest colls owned

/-- `closest('[class*="header"], [class*="hero"], [class*="cta"]')`. -/
def closestHeaderHeroCta (root : Node) (p : Path) : Option (Path × Node) :=
  (selfAncestors root p).find? (fun qm =>
    match attrN qm.2 "class" with
    | some ca =>
      strIncludes ca "header" || strIncludes ca "hero" || strIncludes ca "cta"
    | none => false)

/-- The generic-heading branch of the heading pass: header/hero/cta parent
context, `cc-*` modifier, or ordinal fallback. -/
def fallbackNaming (root : Node) (p : Path) (classInfo : Option ClassInfo)
    (selTag : String) (index : Nat) : String × String :=
  let parentClassInfo :=
    match closestHeaderHeroCta root p with
    | some qm => getPrimaryClass (attrN qm.2 "class")
    | none => none
  let modifier := getContextModifier root p
  match parentClassInfo with
  | some pci =>
    (match modifier with
      | some m => m ++ "_" ++ pci.fieldName
      | none => pci.fieldName,
     match classInfo with
      | some ci => "." ++ ci.selector
      | none => "." ++ pci.selector)
  | none =>
    match modifier with
    | some m =>
      (m ++ "_heading",
       match classInfo with
        | some ci => "." ++ ci.selector
        | none => selTag)
    | none =>
      ("heading_" ++ toString index,
       match classInfo with
        | some ci => "." ++ ci.selector
        | none => selTag)

/-- Pass 2, headings: field name from the element's own semantic class, or
from header/hero/cta context plus a `cc-*` modifier, or an ordinal
fallback `heading_{n}`. -/
def headingPass (root : Node) (owned : List Path) :
    List (Path × Node) → Nat → List (String × FieldMapping) →
      List (String × FieldMapping)
  | [], _, acc => acc
  | (p, n) :: rest, index, acc =>
    if p ∈ owned then headingPass root owned rest (index + 1) acc
    else
      let text := strTrim (textContent n)
      let classInfo := getPrimaryClass (attrN n "class")
      if text ≠ "" then
        let selTag :=
          match n with
          | .elem t _ _ => strToLower t
          | .text _ => ""
        let fieldSel : String × String :=
          match classInfo with
          | some ci =>
            if !(strStartsWith ci.fieldName "heading_") then
              (ci.fieldName, "." ++ ci.selector)
            else
              fallbackNaming root p (some ci) selTag index
          | none => fallbackNaming root p none selTag index
        headingPass root owned rest (index + 1)
          (upsert acc fieldSel.1 ⟨fieldSel.2, "plain", true, none, none⟩)
      else headingPass root owned rest (index + 1) acc

/-- Pass 2, paragraphs: classed paragraphs longer than 20 characters;
rich when they contain inline formatting or link children. -/
def paragraphPass (root : Node) (owned : List Path) :
    List (Path × Node) → List (String × FieldMapping) →
      List (String × FieldMapping)
  | [], acc => acc
  | (p, n) :: rest, acc =>
    if p ∈ owned then paragraphPass root owned rest acc
    else
      let text := strTrim (textContent n)
      let classInfo := getPrimaryClass (attrN n "class")
      match classInfo with
      | some ci =>
        if text ≠ "" && text.length > 20 then
          let hasFormatting := (descOf p n).any (fun pn =>
            isTag pn.2 "strong" || isTag pn.2 "em" || isTag pn.2 "b" ||
              isTag pn.2 "i" || isTag pn.2 "a" || isTag pn.2 "nuxtlink")
          paragraphPass root owned rest
            (upsert acc ci.fieldName
              ⟨"." ++ ci.selector, if hasFormatting then "rich" else "plain",
                true, none, none⟩)
        else paragraphPass root owned rest acc
      | none => paragraphPass root owned rest acc

/-- Pass 2, content images: skip owned, buttoned and decorative images;
name from the parent's class, suffixing `_image` when needed. -/
def imagePass (root : Node) (owned : List Path) :
    List (Path × Node) → List (String × FieldMapping) →
      List (String × FieldMapping)
  | [], acc => acc
  | (p, _n) :: rest, acc =>
    if p ∈ owned then imagePass root owned rest acc
    else if isInsideButton root p then imagePass root owned rest acc
    else if isDecorativeImage root p then imagePass root owned rest acc
    else
      match getPrimaryClass (parentClassAttr root p) with
      | some parentClassInfo =>
        let fieldName :=
          if strIncludes parentClassInfo.fieldName "image" then
            parentClassInfo.fieldName
          else parentClassInfo.fieldName ++ "_image"
        imagePass root owned rest
          (upsert acc fieldName
            ⟨"." ++ parentClassInfo.selector, "image", true, none, none⟩)
      | none => imagePass root owned rest acc

/-- `$el.contents().filter(text or div).first().text().trim()`. -/
def buttonText (n : Node) : String :=
  match n with
  | .elem _ _ cs =>
    match cs.find? (fun c =>
        match c with
        | .text _ => true
        | .elem t _ _ => strToLower t == "div") with
    | some c => strTrim (textContent c)
    | none => ""
  | .text _ => ""

/-- Pass 2, button text: `.c_button` elements with a direct text/div child
longer than 2 characters, named from the closest `cta` container. -/
def buttonPass (root : Node) (owned : List Path) :
    List (Path × Node) → List (String × FieldMapping) →
      List (String × FieldMapping)
  | [], acc => acc
  | (p, n) :: rest, acc =>
    if p ∈ owned then buttonPass root owned rest acc
    else
      let text := buttonText n
      if text ≠ "" && text.length > 2 then
        let parentClassInfo :=
          match (selfAncestors root p).find? (fun qm =>
              match attrN qm.2 "class" with
              | some ca => strIncludes ca "cta"
              | none => false) with
          | some qm => getPrimaryClass (attrN qm.2 "class")
          | none => none
        let fieldName :=
          match parentClassInfo with
          | some pci => pci.fieldName ++ "_button_text"
          | none => "button_text"
        buttonPass root owned rest
          (upsert acc fieldName ⟨".c_button", "plain", true, none, none⟩)
      else buttonPass root owned rest acc

structure DetectResult where
  fields : List (String × FieldMapping)
  collections : List (String × CollectionMapping)
deriving Repr

/-- `detectEditableFields`: two-pass inference — collections first (with
ownership marking), then individual heading/paragraph/image/button fields
over the non-owned remainder. -/
def detectEditableFields (root : Node) : DetectResult :=
  let withClass := (allElems root).filter (fun pn => (attrN pn.2 "class").isSome)
  let potentialCollections := buildGroups withClass []
  let processed := processGroups root potentialCollections [] []
  let detectedCollections := processed.1
  let owned := processed.2
  let body := descOf [] root
  let headings := body.filter (fun pn => isHeadingTag pn.2)
  let paragraphs := body.filter (fun pn => isTag pn.2 "p")
  let images := body.filter (fun pn => isTag pn.2 "img")
  let buttons := body.filter (fun pn =>
    (isTag pn.2 "nuxtlink" && hasClass pn.2 "c_button") ||
      (isTag pn.2 "a" && hasClass pn.2 "c_button") || hasClass pn.2 "c_button")
  let fields1 := headingPass root owned headings 0 []
  let fields2 := paragraphPass root owned paragraphs fields1
  let fields3 := imagePass root owned images fields2
  let fields4 := buttonPass root owned buttons fields3
  { fields := fields4, collections := detectedCollections }

/-! ### content-extractor.ts — seed data extraction -/

structure PageContent where
  fields : List (String × String)
  collections : List (String × List (List (String × String)))
deriving DecidableEq, Repr

/-- `element.attr('src') || element.find('img').attr('src') || ''`. -/
def imgSrcOf (p : Path) (n : Node) : String :=
  jsOr ((attrN n "src").getD "")
    (match ((descOf p n).filter (fun pn => isTag pn.2 "img")).head? with
      | some pn => (attrN pn.2 "src").getD ""
      | none => "")

/-- One field of one collection item: the relative selector resolved
inside the item element; images take `src`, links take `href`, the rest
take text. -/
def extractItemField (it : Path × Node) (item : List (String × String))
    (fieldEntry : String × String) : List (String × String) :=
  match (findDescOf it.1 it.2 fieldEntry.2).head? with
  | some fe =>
    if fieldEntry.1 == "image" || strIncludes fieldEntry.1 "image" then
      upsert item fieldEntry.1 (imgSrcOf fe.1 fe.2)
    else if fieldEntry.1 == "link" || fieldEntry.1 == "url" then
      upsert item fieldEntry.1 ((attrN fe.2 "href").getD "")
    else upsert item fieldEntry.1 (strTrim (textContent fe.2))
  | none => item

/-- One collection item record. -/
def extractItem (it : Path × Node) (fields : List (String × String)) :
    List (String × String) :=
  fields.foldl (extractItemField it) []

/-- One container match of a collection: keep its record when nonempty. -/
def extractCollStep (fields : List (String × String))
    (items : List (List (String × String))) (it : Path × Node) :
    List (List (String × String)) :=
  let item := extractItem it fields
  if item ≠ [] then items ++ [item] else items

/-- Items of one collection: one record per container match, dropping
records with no extractable field. -/
def extractColl (root : Node) (c : CollectionMapping) :
    List (List (String × String)) :=
  (matchesOf root c.selector).foldl (extractCollStep c.fields) []

/-- One top-level field of `extractContentFromHTML`. -/
def extractFieldStep (root : Node) (acc : List (String × String))
    (fieldEntry : String × FieldMapping) : List (String × String) :=
  match (matchesOf root fieldEntry.2.selector).head? with
  | some el =>
    if fieldEntry.2.type == "image" then
      upsert acc fieldEntry.1 (imgSrcOf el.1 el.2)
    else upsert acc fieldEntry.1 (strTrim (textContent el.2))
  | none => acc

/-- One collection of `extractContentFromHTML`: collections with zero
items are omitted. -/
def extractPageCollStep (root : Node)
    (acc : List (String × List (List (String × String))))
    (collEntry : String × CollectionMapping) :
    List (String × List (List (String × String))) :=
  let items := extractColl root collEntry.2
  if items ≠ [] then upsert acc collEntry.1 items else acc

/-- `extractContentFromHTML`: re-resolve every manifest selector against
the original tree. -/
def extractContentFromHTML (root : Node) (pageManifest : PageManifest) :
    PageContent :=
  { fields := pageManifest.fields.foldl (extractFieldStep root) []
    collections := pageManifest.collections.foldl (extractPageCollStep root) [] }

/-- `path.basename` (posix): last segment, ignoring trailing slashes. -/
def basename (p : String) : String :=
  String.mk
    ((((p.data.reverse.dropWhile (fun c => c = '/')).takeWhile
        (fun c => !(c = '/'))).reverse))

/-- `normalizeImagePath`: root-relative paths pass through, `images/`
paths are rebased to `/images/`, everything else lands at the root. -/
def normalizeImagePath (imageSrc : String) : String :=
  if imageSrc = "" then ""
  else if strStartsWith imageSrc "/" then imageSrc
  else
    let filename := basename imageSrc
    if strIncludes imageSrc "images/" then "/images/" ++ filename
    else "/" ++ filename

/-- Seed-data values: a single-type record or a collection item list. -/
inductive SeedVal where
  | single (fields : List (String × String))
  | collection (items : List (List (String × String)))
deriving DecidableEq, Repr

structure ExtractedContent where
  pages : List (String × PageContent)
deriving DecidableEq, Repr

/-- Image-path normalization over a single-type field record. -/
def formatFields (fields : List (String × String)) : List (String × String) :=
  fields.foldl (fun acc fv =>
    if strIncludes fv.1 "image" || strIncludes fv.1 "bg" then
      upsert acc fv.1 (normalizeImagePath fv.2)
    else upsert acc fv.1 fv.2) []

/-- Image-path normalization over one collection item. -/
def formatItem (item : List (String × String)) : List (String × String) :=
  item.foldl (fun acc fv =>
    if fv.1 == "image" || strIncludes fv.1 "image" then
      upsert acc fv.1 (normalizeImagePath fv.2)
    else upsert acc fv.1 fv.2) []

/-- One collection of one page in the seed document. -/
def seedCollStep (sd : List (String × SeedVal))
    (collEntry : String × List (List (String × String))) :
    List (String × SeedVal) :=
  upsert sd collEntry.1 (SeedVal.collection (collEntry.2.map formatItem))

/-- One page in the seed document: single-type entry keyed by page name,
then one entry per collection keyed by collection name. -/
def seedPageStep (seedData : List (String × SeedVal))
    (pageEntry : String × PageContent) : List (String × SeedVal) :=
  let afterFields :=
    if pageEntry.2.fields.length > 0 then
      upsert seedData pageEntry.1 (SeedVal.single (formatFields pageEntry.2.fields))
    else seedData
  pageEntry.2.collections.foldl seedCollStep afterFields

/-- `formatForStrapi`: page fields become single-type seed entries keyed by
page name; collections become item arrays keyed by collection name. -/
def formatForStrapi (extracted : ExtractedContent) : List (String × SeedVal) :=
  extracted.pages.foldl seedPageStep []

/-! ### transformer.ts — manifest to Strapi schemas -/

def mapFieldTypeToStrapi (fieldType : String) : String :=
  (alookup
      [("plain", "string"), ("rich", "richtext"), ("html", "richtext"),
        ("image", "media"), ("link", "string"), ("email", "email"),
        ("phone", "string")]
      fieldType).getD "string"

/-- `pluralize`: `s/x/z/ch/sh` gain `es`; consonant+`y` becomes `ies`;
everything else gains `s`. -/
def pluralize (word : String) : String :=
  if strEndsWith word "s" || strEndsWith word "x" || strEndsWith word "z" ||
      strEndsWith word "ch" || strEndsWith word "sh" then
    word ++ "es"
  else if strEndsWith word "y" && word.length > 1 then
    match word.data.reverse with
    | _ :: secondLast :: _ =>
      if !(("aeiou".data).contains secondLast.toLower) then
        String.mk word.data.dropLast ++ "ies"
      else word ++ "s"
    | _ => word ++ "s"
  else word ++ "s"

structure StrapiAttr where
  type : String
  required : Option Bool := none
  defaultVal : Option String := none
deriving DecidableEq, Repr

structure StrapiSchema where
  kind : String
  collectionName : String
  singularName : String
  pluralName : String
  displayName : String
  attributes : List (String × StrapiAttr)
deriving DecidableEq, Repr

/-- `word.charAt(0).toUpperCase() + word.slice(1)`. -/
def capitalizeWord (w : String) : String :=
  match w.data with
  | [] => ""
  | c :: cs => String.mk (c.toUpper :: cs)

/-- `pageToStrapiSchema`: page field records become a single type named by
the page, with a `pluralize`d plural name. -/
def pageToStrapiSchema (pageName : String)
    (fields : List (String × FieldMapping)) : StrapiSchema :=
  let attributes := fields.foldl (fun attrs fieldEntry =>
    upsert attrs fieldEntry.1
      ⟨mapFieldTypeToStrapi fieldEntry.2.type,
        some (fieldEntry.2.required.getD false),
        match fieldEntry.2.defaultVal with
        | some d => if d = "" then none else some d
        | none => none⟩) []
  let displayName :=
    strJoinSpace (((splitCh '-' pageName.data).map String.mk).map capitalizeWord)
  let kebabCaseName := pageName
  { kind := "singleType"
    collectionName := kebabCaseName
    singularName := kebabCaseName
    pluralName := pluralize kebabCaseName
    displayName := displayName
    attributes := attributes }

/-- The by-field-name attribute typing of `collectionToStrapiSchema`. -/
def collFieldType (fieldName : String) : String :=
  if fieldName == "image" || strIncludes fieldName "image" then "media"
  else if fieldName == "description" || fieldName == "content" then "richtext"
  else if fieldName == "link" || fieldName == "url" then "string"
  else if fieldName == "title" || fieldName == "tag" then "string"
  else "string"

/-- One attribute of a collection schema: the field name verbatim, typed
by name. -/
def collAttrStep (attrs : List (String × StrapiAttr))
    (fieldEntry : String × String) : List (String × StrapiAttr) :=
  upsert attrs fieldEntry.1 ⟨collFieldType fieldEntry.1, none, none⟩

/-- `collectionToStrapiSchema`: attribute names are the collection's field
names verbatim; the collection-level names are re-derived — underscores
become dashes and the singular drops a trailing `s`. -/
def collectionToStrapiSchema (collectionName : String)
    (collection : CollectionMapping) : StrapiSchema :=
  let attributes := collection.fields.foldl collAttrStep []
  let displayName :=
    strJoinSpace
      (((splitByP (fun c => c = '-' || c = '_') collectionName.data).map
          String.mk).map capitalizeWord)
  let kebabCaseName := strReplaceAll collectionName "_" "-"
  let singularName :=
    if strEndsWith kebabCaseName "s" then String.mk kebabCaseName.data.dropLast
    else kebabCaseName
  { kind := "collectionType"
    collectionName := kebabCaseName
    singularName := singularName
    pluralName := kebabCaseName
    displayName := displayName
    attributes := attributes }

/-- `manifestToSchemas`: pages with fields become single types keyed by
page name; every collection becomes a collection type keyed by its
manifest name. -/
def manifestToSchemas (manifest : CMSManifest) : List (String × StrapiSchema) :=
  manifest.pages.foldl (fun schemas pageEntry =>
    let schemas :=
      if pageEntry.2.fields.length > 0 then
        upsert schemas pageEntry.1 (pageToStrapiSchema pageEntry.1 pageEntry.2.fields)
      else schemas
    pageEntry.2.collections.foldl (fun s collEntry =>
      upsert s collEntry.1 (collectionToStrapiSchema collEntry.1 collEntry.2))
      schemas) []

/-! ### parser.ts — route and link normalization -/

/-- One step of Node's posix `normalizeString` segment resolution. -/
def normSegStep (allowAboveRoot : Bool) (stack : List (List Char))
    (seg : List Char) : List (List Char) :=
  if seg = [] || seg = ['.'] then stack
  else if seg = ['.', '.'] then
    if stack ≠ [] && stack.getLast? ≠ some ['.', '.'] then stack.dropLast
    else if allowAboveRoot then stack ++ [seg]
    else stack
  else stack ++ [seg]

/-- Node `path.posix.normalize`. -/
def posixNormalize (p : String) : String :=
  if p = "" then "."
  else
    let isAbs := strStartsWith p "/"
    let trailingSep := strEndsWith p "/"
    let stack := (splitCh '/' p.data).foldl (normSegStep (!isAbs)) []
    let core := joinSep '/' stack
    if core = [] then
      if isAbs then "/" else if trailingSep then "./" else "."
    else
      let withTrail := if trailingSep then core ++ ['/'] else core
      if isAbs then String.mk ('/' :: withTrail) else String.mk withTrail

/-- `normalizeRoute`: strip `.html`, special-case index and parent
references, drop relative markers, then posix-normalize to an absolute
route. -/
def normalizeRoute (href : String) : String :=
  let route := strReplaceFirst href ".html" ""
  if route = "index" || route = "/index" || strEndsWith route "/index" then "/"
  else if route = ".." || route = "../" || route = "/.." || route = "../index" then
    "/"
  else
    let route := strReplaceAll (strReplaceAll route "../" "") "./" ""
    let normalized := posixNormalize route
    if !(strStartsWith normalized "/") then "/" ++ normalized
    else if normalized = "." || normalized = "" then "/"
    else normalized

/-- The external-link test of `transformForNuxt`. -/
def isExternalHref (href : String) : Bool :=
  strStartsWith href "http://" || strStartsWith href "https://" ||
    strStartsWith href "mailto:" || strStartsWith href "tel:" ||
    strStartsWith href "#"

/-- The navigation target produced by `transformForNuxt` for one `href`:
external references pass through; internal ones are normalized routes. -/
def transformNavHref (href : String) : String :=
  if !(isExternalHref href) then normalizeRoute href else href

/-! ### vue-transformer.ts — template rewriting -/

/-- `replaceWithBinding` for one matched element of a field selector. -/
def replaceWithBinding (fieldName : String) (type : String) (root : Node)
    (el : Path × Node) : Node :=
  if type == "image" then
    match (findDescOf el.1 el.2 "img").head? with
    | some img =>
      mapAt img.1
        (fun n => removeAttrN (setAttrN n ":src" ("content." ++ fieldName)) "src")
        root
    | none => root
  else if type == "rich" then
    mapAt el.1
      (fun n =>
        match setAttrN n "v-html" ("content." ++ fieldName) with
        | .elem t a _ => .elem t a []
        | .text s => .text s)
      root
  else
    mapAt el.1 (fun n => setTextN n ("\x7b\x7b content." ++ fieldName ++ " \x7d\x7d"))
      root

/-- One collection field rewrite inside the first container instance. -/
def bindCollField (p1 : Path) (root : Node) (fieldEntry : String × String) :
    Node :=
  let n1 := (nodeAt p1 root).getD (.text "")
  let fieldEls := findDescOf p1 n1 fieldEntry.2
  if fieldEls.isEmpty then root
  else if fieldEntry.1 == "image" then
    match (fieldEls.flatMap (fun fe => findDescOf fe.1 fe.2 "img")).head? with
    | some img =>
      mapAt img.1 (fun n => removeAttrN (setAttrN n ":src" "item.image") "src") root
    | none => root
  else if fieldEntry.1 == "link" then
    fieldEls.foldl (fun r fe =>
      mapAt fe.1
        (fun n => removeAttrN (removeAttrN (setAttrN n ":to" "item.link") "to") "href")
        r) root
  else
    fieldEls.foldl (fun r fe =>
      mapAt fe.1
        (fun n => setTextN n ("\x7b\x7b item." ++ fieldEntry.1 ++ " \x7d\x7d")) r)
      root

/-- `transformCollection`: v-for on the first container match, bind its
fields, delete the remaining matches. -/
def transformCollection (root : Node) (collectionName : String)
    (collection : CollectionMapping) : Node :=
  let items := matchesOf root collection.selector
  match items with
  | [] => root
  | (p1, _) :: rest =>
    let root := mapAt p1
      (fun n =>
        setAttrN (setAttrN n "v-for" ("(item, index) in content." ++ collectionName))
          ":key" "index")
      root
    let root := collection.fields.foldl (bindCollField p1) root
    removeAtPaths (rest.map Prod.fst) [] root

/-- The template rewrite of `transformVueToReactive`: collections first,
then individual fields. -/
def transformVueTemplate (pageManifest : PageManifest) (tree : Node) : Node :=
  let tree := pageManifest.collections.foldl
    (fun t collEntry => transformCollection t collEntry.1 collEntry.2) tree
  pageManifest.fields.foldl
    (fun t fieldEntry =>
      (matchesOf t fieldEntry.2.selector).foldl
        (replaceWithBinding fieldEntry.1 fieldEntry.2.type) t)
    tree

/-- A Vue single-file component: its script block and its parsed template
(none when the file has no `<template>` block). -/
structure VueFile where
  script : String
  template : Option Node

/-- The generated script-setup block, which always contains the
`useStrapiContent` marker. -/
def generatedScript (pageName : String) : String :=
  "<script setup lang=\"ts\">\n// Auto-generated reactive content from Strapi\nconst \x7b content \x7d = useStrapiContent(\x27" ++
    pageName ++ "\x27);\n</script>"

mutual
/-- Whether the substring occurs anywhere in the serialized node: tag,
attribute names/values or text. -/
def nodeMentions (pat : String) : Node → Bool
  | .text s => strIncludes s pat
  | .elem t attrs cs =>
    strIncludes t pat ||
      attrs.any (fun kv => strIncludes kv.1 pat || strIncludes kv.2 pat) ||
      nodeMentionsL pat cs
def nodeMentionsL (pat : String) : List Node → Bool
  | [] => false
  | c :: cs => nodeMentions pat c || nodeMentionsL pat cs
end

/-- `vueContent.includes('useStrapiContent')` over the modeled file. -/
def hasStrapiMarker (f : VueFile) : Bool :=
  strIncludes f.script "useStrapiContent" ||
    (match f.template with
      | some t => nodeMentions "useStrapiContent" t
      | none => false)

/-- `transformVueToReactive`: skip unknown pages, already-transformed
files and template-less files; otherwise rewrite the template and emit the
generated script. -/
def transformVueToReactive (manifest : CMSManifest) (pageName : String)
    (f : VueFile) : VueFile :=
  match alookup manifest.pages pageName with
  | none => f
  | some pageManifest =>
    if hasStrapiMarker f then f
    else
      match f.template with
      | none => f
      | some tree =>
        { script := generatedScript pageName
          template := some (transformVueTemplate pageManifest tree) }

/-! ### manifest-loader.ts — the editor overlay's manifest store -/

/-- The `ManifestLoader` state: the cached manifest, `null` before the
first successful load. -/
structure ManifestLoader where
  manifest : Option CMSManifest

/-- A fresh loader (the constructor initializes the cache to `null`). -/
def ManifestLoader.new : ManifestLoader := { manifest := none }

def manifestNotLoadedMsg : String := "Manifest not loaded. Call load() first."

/-- `getManifest`: throws `ManifestNotLoaded` before a successful load. -/
def ManifestLoader.getManifest (l : ManifestLoader) : Except String CMSManifest :=
  match l.manifest with
  | none => .error manifestNotLoadedMsg
  | some m => .ok m

/-- `load`: returns the cache when present; otherwise the fetch result is
either cached and returned, or rethrown with the state untouched. -/
def ManifestLoader.load (l : ManifestLoader)
    (fetchResult : Except String CMSManifest) :
    Except String CMSManifest × ManifestLoader :=
  match l.manifest with
  | some m => (.ok m, l)
  | none =>
    match fetchResult with
    | .ok m => (.ok m, { manifest := some m })
    | .error e => (.error e, l)

/-! ### Claim-side vocabulary

Predicates that phrase the spec's side conditions, for use in theorem
statements. -/

/-- Spec wording of C5: a word ending in `s`/`x`/`z`/`ch`/`sh`. -/
def endsSibilant (w : String) : Bool :=
  strEndsWith w "s" || strEndsWith w "x" || strEndsWith w "z" ||
    strEndsWith w "ch" || strEndsWith w "sh"

/-- Spec wording of C5: a word ending in a non-vowel followed by `y`. -/
def endsConsY (w : String) : Bool :=
  match w.data.reverse with
  | 'y' :: secondLast :: _ => !(("aeiou".data).contains secondLast.toLower)
  | _ => false

/-- Spec wording of C7's amendment: every `img` of the page has a direct
parent whose class contains `nav` or `logo`. -/
def allImgsUnderNavLogo (root : Node) : Bool :=
  ((descOf [] root).filter (fun pn => isTag pn.2 "img")).all (fun pn =>
    let pc := (parentClassAttr root pn.1).getD ""
    strIncludes pc "nav" || strIncludes pc "logo")

/-! ### Concrete pages used by witnesses and counterexamples -/

/-- A classed story card: image wrapper, heading and long paragraph all
carry semantic classes. -/
def storyCard (title : String) : Node :=
  .elem "div" [("class", "story-card")]
    [.elem "div" [("class", "card-image")] [.elem "img" [("src", "images/a.png")] []],
     .elem "h3" [("class", "card-title")] [.text title],
     .elem "p" [("class", "card-text")]
       [.text "A description that is clearly longer than twenty characters."]]

/-- Three sibling `story-card` elements with classed sub-elements. -/
def storyTree : Node :=
  .elem "body" [] [storyCard "One", storyCard "Two", storyCard "Three"]

/-- The page schema inferred from `storyTree`. -/
def storyPM : PageManifest :=
  { fields := (detectEditableFields storyTree).fields
    collections := (detectEditableFields storyTree).collections }

def storyManifest : CMSManifest :=
  { version := "1.0", pages := [("index", storyPM)] }

/-- A story card whose image, heading and paragraph carry no classes. -/
def bareStoryCard : Node :=
  .elem "div" [("class", "story-card")]
    [.elem "img" [("src", "images/a.png")] [],
     .elem "h2" [] [.text "Hello"],
     .elem "p" [] [.text "A description that is clearly longer than twenty characters."]]

/-- Three sibling `story-card` elements with bare sub-elements. -/
def bareStoryTree : Node :=
  .elem "body" [] [bareStoryCard, bareStoryCard, bareStoryCard]

/-- Two `team-item` siblings whose only content is a classless
`NuxtLink`. -/
def teamTree : Node :=
  .elem "body" []
    [.elem "div" [("class", "team-item")]
       [.elem "nuxtlink" [("href", "/about")] [.text "Read more about us"]],
     .elem "div" [("class", "team-item")]
       [.elem "nuxtlink" [("href", "/contact")] [.text "Get in touch"]]]

/-- The manifest inferred from `teamTree`. -/
def teamPM : PageManifest :=
  { fields := (detectEditableFields teamTree).fields
    collections := (detectEditableFields teamTree).collections }

/-- An image nested two levels below a `navbar` container, behind a
non-decorative `imgwrap` parent. -/
def navTree : Node :=
  .elem "body" []
    [.elem "div" [("class", "navbar")]
       [.elem "div" [("class", "imgwrap")]
          [.elem "img" [("src", "logo-pic.png")] []]]]

/-- The page schema inferred from `navTree` (one image field). -/
def navPM : PageManifest :=
  { fields := (detectEditableFields navTree).fields
    collections := (detectEditableFields navTree).collections }

/-- An image directly inside a `nav-menu` container. -/
def navDirectTree : Node :=
  .elem "body" []
    [.elem "div" [("class", "nav-menu")] [.elem "img" [("src", "pic.png")] []]]

/-- Two `feature-category` siblings: a collection whose singular ends in
consonant + `y`. -/
def featTree : Node :=
  .elem "body" []
    [.elem "div" [("class", "feature-category")]
       [.elem "h3" [("class", "category-name")] [.text "News"]],
     .elem "div" [("class", "feature-category")]
       [.elem "h3" [("class", "category-name")] [.text "Sport"]]]

def featCM : CollectionMapping :=
  { selector := ".feature-category", fields := [("title", ".category-name")] }

/-- The seed-extraction input built from the story page. -/
def storyExtracted : ExtractedContent :=
  { pages := [("index", extractContentFromHTML storyTree storyPM)] }

/-- The expected rewrite of `navTree`: the image field's literal source
replaced by a bound source `content.imgwrap_image`. -/
def navTemplateExpected : Node :=
  .elem "body" []
    [.elem "div" [("class", "navbar")]
       [.elem "div" [("class", "imgwrap")]
          [.elem "img" [(":src", "content.imgwrap_image")] []]]]

/-- The expected rewrite of `storyTree`: v-for plus `item.*` bindings on
the first card, later cards removed. -/
def storyTemplateExpected : Node :=
  .elem "body" []
    [.elem "div"
       [("class", "story-card"),
        ("v-for", "(item, index) in content.story_cards"), (":key", "index")]
       [.elem "div" [("class", "card-image")]
          [.elem "img" [(":src", "item.image")] []],
        .elem "h3" [("class", "card-title")] [.text "\x7b\x7b item.title \x7d\x7d"],
        .elem "p" [("class", "card-text")] [.text "\x7b\x7b item.description \x7d\x7d"]]]

/-! ## Generic lemmas about the JS string and object primitives -/

theorem strData_append (a b : String) : (a ++ b).data = a.data ++ b.data := rfl

theorem isHeadOf_append {pat l b : List Char} (h : isHeadOf pat l = true) :
    isHeadOf pat (l ++ b) = true := by
  induction pat generalizing l with
  | nil => simp [isHeadOf]
  | cons c pa ih =>
    cases l with
    | nil => simp [isHeadOf] at h
    | cons c' l' =>
      by_cases hc : c = c'
      · subst hc
        simp only [isHeadOf, if_pos rfl] at h
        simpa [isHeadOf] using ih h
      · simp [isHeadOf, hc] at h

theorem isPartOf_nil (l : List Char) : isPartOf [] l = true := by
  cases l <;> simp [isPartOf, isHeadOf]

theorem isPartOf_append_left {pat a : List Char} (b : List Char)
    (h : isPartOf pat a = true) : isPartOf pat (a ++ b) = true := by
  induction a with
  | nil =>
    cases pat with
    | nil => simpa using isPartOf_nil b
    | cons c pa => simp [isPartOf, isHeadOf] at h
  | cons c a' ih =>
    simp only [isPartOf, Bool.or_eq_true] at h
    rcases h with h | h
    · have := isHeadOf_append (b := b) h
      simp only [List.cons_append] at this ⊢
      simp [isPartOf, this]
    · simp only [List.cons_append]
      simp [isPartOf, ih h]

theorem isHeadOf_slash (l : List Char) : isHeadOf ['/'] ('/' :: l) = true := by
  simp [isHeadOf]

theorem strStartsWith_slash_cons {s : String} {l : List Char}
    (h : s.data = '/' :: l) : strStartsWith s "/" = true := by
  unfold strStartsWith
  rw [h]
  exact isHeadOf_slash l

theorem mem_upsert {l : List (String × β)} {k : String} {v : β} {x : String × β}
    (h : x ∈ upsert l k v) : x ∈ l ∨ x = (k, v) := by
  unfold upsert at h
  split at h
  · rcases List.mem_map.mp h with ⟨e, he, hx⟩
    by_cases hek : e.1 = k
    · simp only [if_pos hek] at hx
      exact Or.inr hx.symm
    · simp only [if_neg hek] at hx
      exact Or.inl (hx ▸ he)
  · rcases List.mem_append.mp h with h1 | h1
    · exact Or.inl h1
    · simp only [List.mem_singleton] at h1
      exact Or.inr h1

theorem mem_keys_upsert {l : List (String × β)} {k a : String} {v : β}
    (h : a ∈ (upsert l k v).map Prod.fst) : a = k ∨ a ∈ l.map Prod.fst := by
  rcases List.mem_map.mp h with ⟨x, hx, hax⟩
  rcases mem_upsert hx with hx | hx
  · exact Or.inr (hax ▸ List.mem_map_of_mem Prod.fst hx)
  · left; rw [hx] at hax; exact hax.symm

theorem keys_upsert_mono {l : List (String × β)} {a : String} (k : String)
    (v : β) (h : a ∈ l.map Prod.fst) : a ∈ (upsert l k v).map Prod.fst := by
  unfold upsert
  split
  · rcases List.mem_map.mp h with ⟨e, he, hae⟩
    refine List.mem_map.mpr ⟨if e.1 = k then (k, v) else e, List.mem_map_of_mem _ he, ?_⟩
    by_cases hek : e.1 = k
    · simp [hek, ← hae, hek]
    · have hak : ¬a = k := fun hh => hek (hae.trans hh)
      simp [hek, hae, hak]
  · simp [h]

theorem self_mem_keys_upsert (l : List (String × β)) (k : String) (v : β) :
    k ∈ (upsert l k v).map Prod.fst := by
  unfold upsert
  split
  · rename_i hany
    rcases List.any_eq_true.mp hany with ⟨e, he, hek⟩
    refine List.mem_map.mpr ⟨(k, v), ?_, rfl⟩
    refine List.mem_map.mpr ⟨e, he, ?_⟩
    simp only [decide_eq_true_eq] at hek
    simp [hek]
  · simp

/-! ## C10 — normalizeImagePath -/

theorem normalizeImagePath_rooted_fix {t : String}
    (h : strStartsWith t "/" = true) : normalizeImagePath t = t := by
  unfold normalizeImagePath
  by_cases ht : t = ""
  · simp [ht]
  · simp [ht, h]

theorem normalizeImagePath_rooted_out (s : String)
    (h : normalizeImagePath s ≠ "") :
    strStartsWith (normalizeImagePath s) "/" = true := by
  have hslash : ∀ t : String, strStartsWith ("/" ++ t) "/" = true := fun t =>
    strStartsWith_slash_cons (by rw [strData_append]; rfl)
  have himg : ∀ t : String, strStartsWith ("/images/" ++ t) "/" = true := by
    intro t
    have hd : ("/images/" ++ t).data = '/' :: ("images/".data ++ t.data) := by
      rw [strData_append]
      rfl
    exact strStartsWith_slash_cons hd
  by_cases h0 : s = ""
  · exact absurd (by simp [h0, normalizeImagePath]) h
  · by_cases h1 : strStartsWith s "/" = true
    · rw [normalizeImagePath_rooted_fix h1]
      exact h1
    · have hs : normalizeImagePath s =
          (if strIncludes s "images/" then "/images/" ++ basename s
            else "/" ++ basename s) := by
        unfold normalizeImagePath
        simp [h0, h1]
      rw [hs]
      split
      · exact himg (basename s)
      · exact hslash (basename s)

/-- C10: `normalizeImagePath` is idempotent; every non-empty output begins
with `/`; inputs beginning with `/` are returned unchanged; the empty
string maps to itself. -/
theorem c10_normalize_image_path (s : String) :
    normalizeImagePath (normalizeImagePath s) = normalizeImagePath s ∧
    (normalizeImagePath s ≠ "" → strStartsWith (normalizeImagePath s) "/" = true) ∧
    (strStartsWith s "/" = true → normalizeImagePath s = s) ∧
    normalizeImagePath "" = "" := by
  refine ⟨?_, normalizeImagePath_rooted_out s,
    fun h => normalizeImagePath_rooted_fix h, rfl⟩
  by_cases hr : normalizeImagePath s = ""
  · rw [hr]
    rfl
  · exact normalizeImagePath_rooted_fix (normalizeImagePath_rooted_out s hr)

/-- C10 witness: the theorem at a relative image path and at a
root-relative one. -/
theorem c10_witness :
    normalizeImagePath (normalizeImagePath "images/pic.png") =
        normalizeImagePath "images/pic.png" ∧
      normalizeImagePath "/logo.png" = "/logo.png" :=
  ⟨(c10_normalize_image_path "images/pic.png").1,
    (c10_normalize_image_path "/logo.png").2.2.1 (by decide)⟩

/-! ## C8 — ManifestLoader lifecycle -/

/-- C8: reads before a successful load fail with the ManifestNotLoaded
error; after a successful load the read returns the loaded manifest; a
failed load leaves the state unchanged (still unloaded) and a subsequent
load can succeed. -/
theorem c8_manifest_loader :
    (ManifestLoader.new.getManifest = Except.error manifestNotLoadedMsg) ∧
    (∀ (l : ManifestLoader) (r : Except String CMSManifest) m l',
      l.load r = (Except.ok m, l') → l'.getManifest = Except.ok m) ∧
    (∀ (l : ManifestLoader) (r : Except String CMSManifest) e l',
      l.load r = (Except.error e, l') →
        l' = l ∧ l.manifest = none ∧
          ∀ m, l'.load (Except.ok m) =
            (Except.ok m, { manifest := some m })) := by
  refine ⟨rfl, ?_, ?_⟩
  · intro l r m l' h
    unfold ManifestLoader.load at h
    cases hl : l.manifest with
    | some m0 =>
      rw [hl] at h
      simp only [Prod.mk.injEq] at h
      rcases h with ⟨hm, hl'⟩
      cases hm
      rw [← hl']
      unfold ManifestLoader.getManifest
      rw [hl]
    | none =>
      rw [hl] at h
      cases r with
      | ok mr =>
        simp only [Prod.mk.injEq] at h
        rcases h with ⟨hm, hl'⟩
        cases hm
        rw [← hl']
        rfl
      | error e => simp at h
  · intro l r e l' h
    unfold ManifestLoader.load at h
    cases hl : l.manifest with
    | some m0 => rw [hl] at h; simp at h
    | none =>
      rw [hl] at h
      cases r with
      | ok mr => simp at h
      | error e0 =>
        simp only [Prod.mk.injEq] at h
        rcases h with ⟨he, hl'⟩
        refine ⟨hl'.symm, rfl, fun m => ?_⟩
        rw [← hl']
        unfold ManifestLoader.load
        rw [hl]

/-- C8 witness: the theorem exercised on a concrete failing load followed
by a successful one. -/
theorem c8_witness :
    (ManifestLoader.new.load (Except.error "HTTP 404")).2 = ManifestLoader.new ∧
      (ManifestLoader.new.load
          (Except.error "HTTP 404")).2.load
          (Except.ok { version := "1.0", pages := [] }) =
        (Except.ok { version := "1.0", pages := [] },
          { manifest := some { version := "1.0", pages := [] } }) := by
  have h := c8_manifest_loader.2.2 ManifestLoader.new (Except.error "HTTP 404")
    "HTTP 404" (ManifestLoader.new.load (Except.error "HTTP 404")).2 rfl
  exact ⟨h.1, by rw [h.1]; exact h.2.2 { version := "1.0", pages := [] }⟩

/-! ## C4 — idempotence of the template rewrite -/

theorem generatedScript_has_marker (pageName : String) :
    strIncludes (generatedScript pageName) "useStrapiContent" = true := by
  unfold strIncludes generatedScript
  rw [strData_append, strData_append]
  apply isPartOf_append_left
  apply isPartOf_append_left
  decide

/-- C4: the rewrite is idempotent — a rewritten page carries the
`useStrapiContent` marker, so a second application detects it and
no-ops. -/
theorem c4_rewrite_idempotent (manifest : CMSManifest) (pageName : String)
    (f : VueFile) :
    transformVueToReactive manifest pageName
        (transformVueToReactive manifest pageName f) =
      transformVueToReactive manifest pageName f := by
  unfold transformVueToReactive
  cases halk : alookup manifest.pages pageName with
  | none => rfl
  | some pm =>
    by_cases hm : hasStrapiMarker f = true
    · simp [hm]
    · simp only [Bool.not_eq_true] at hm
      cases ht : f.template with
      | none => simp [hm, ht]
      | some tree =>
        simp only [hm, Bool.false_eq_true, if_false, ht]
        have hmark :
            hasStrapiMarker
              { script := generatedScript pageName
                template := some (transformVueTemplate pm tree) } = true := by
          unfold hasStrapiMarker
          simp [generatedScript_has_marker]
        simp [hmark]

/-! ## C6 — navigation reference normalization -/

theorem normalizeRoute_rooted (href : String) :
    strStartsWith (normalizeRoute href) "/" = true := by
  unfold normalizeRoute
  dsimp only
  split
  · decide
  · split
    · decide
    · split
      · exact strStartsWith_slash_cons (by rw [strData_append]; rfl)
      · split
        · decide
        · rename_i hns _
          simp only [Bool.not_eq_eq_eq_not, Bool.not_true, Bool.not_eq_false] at hns
          exact hns

/-- C6: internal navigation references are normalized to root-relative
routes (`about.html` to `/about`, `../index.html` to `/`), while external
and fragment references pass through unchanged. -/
theorem c6_link_normalization :
    transformNavHref "about.html" = "/about" ∧
    transformNavHref "../index.html" = "/" ∧
    transformNavHref "https://x.com/y" = "https://x.com/y" ∧
    transformNavHref "#section" = "#section" ∧
    ∀ href, isExternalHref href = false →
      strStartsWith (transformNavHref href) "/" = true := by
  refine ⟨by decide, by decide, by decide, by decide, fun href h => ?_⟩
  unfold transformNavHref
  simp [h, normalizeRoute_rooted href]

/-- C6 witness: the general internal-reference part of the theorem at a
concrete internal href. -/
theorem c6_witness :
    isExternalHref "services.html" = false ∧
      strStartsWith (transformNavHref "services.html") "/" = true :=
  ⟨by decide, c6_link_normalization.2.2.2.2 "services.html" (by decide)⟩

/-! ## C5 — pluralization -/

theorem pluralize_sibilant {w : String} (h : endsSibilant w = true) :
    pluralize w = w ++ "es" := by
  unfold endsSibilant at h
  unfold pluralize
  rw [if_pos h]

theorem pluralize_consY {w : String} (h : endsConsY w = true) :
    pluralize w = String.mk w.data.dropLast ++ "ies" := by
  unfold endsConsY at h
  split at h
  · rename_i secondLast tail hrev
    have es : ("s".data).reverse = ['s'] := rfl
    have ex : ("x".data).reverse = ['x'] := rfl
    have ez : ("z".data).reverse = ['z'] := rfl
    have ech : ("ch".data).reverse = ['h', 'c'] := rfl
    have esh : ("sh".data).reverse = ['h', 's'] := rfl
    have ey : ("y".data).reverse = ['y'] := rfl
    have hcond : (strEndsWith w "s" || strEndsWith w "x" || strEndsWith w "z" ||
        strEndsWith w "ch" || strEndsWith w "sh") = false := by
      simp [strEndsWith, hrev, es, ex, ez, ech, esh, isHeadOf]
    have hy : strEndsWith w "y" = true := by
      simp [strEndsWith, hrev, ey, isHeadOf]
    have hlen : w.length = tail.length + 2 := by
      show w.data.length = tail.length + 2
      rw [← List.length_reverse, hrev]
      rfl
    unfold pluralize
    rw [if_neg (by simp [hcond])]
    rw [if_pos (by simp [hy, hlen])]
    split
    · rename_i head2 c2 l2 hrev2
      rw [hrev] at hrev2
      injection hrev2 with eh rest
      injection rest with ec el
      subst eh
      subst ec
      rw [if_pos h]
    · rename_i hno
      exact (hno 'y' secondLast tail hrev).elim
  · exact absurd h (by simp)

theorem pluralize_default {w : String} (h1 : endsSibilant w = false)
    (h2 : endsConsY w = false) : pluralize w = w ++ "s" := by
  unfold endsSibilant at h1
  unfold pluralize
  rw [if_neg (by simp [h1])]
  by_cases hy : (strEndsWith w "y" && decide (w.length > 1)) = true
  · rw [if_pos hy]
    split
    · rename_i head secondLast tail hrev
      have hcy : (match w.data.reverse with
          | 'y' :: secondLast :: _ => !(("aeiou".data).contains secondLast.toLower)
          | _ => false) = false := h2
      rw [hrev] at hcy
      simp only [Bool.and_eq_true] at hy
      have hyy : isHeadOf ("y".data).reverse w.data.reverse = true := hy.1
      rw [hrev] at hyy
      have ey : ("y".data).reverse = ['y'] := rfl
      rw [ey] at hyy
      have hh : 'y' = head := by
        by_cases hc : 'y' = head
        · exact hc
        · simp [isHeadOf, hc] at hyy
      subst hh
      simp only at hcy
      have hc2 : (("aeiou".data).contains secondLast.toLower) = true := by
        cases h3 : ("aeiou".data).contains secondLast.toLower
        · rw [h3] at hcy
          simp at hcy
        · rfl
      rw [if_neg (fun hcontra => by rw [hc2] at hcontra; simp at hcontra)]
    · rfl
  · rw [if_neg hy]

/-- C5 (amended): `pluralize` implements the suffix rules and the four
spec examples, and the compiler applies it to derive the plural name of
singular page entries; repeating (collection) entries instead keep the
detector's naive name with underscores turned into dashes. -/
theorem c5_pluralization :
    (pluralize "card" = "cards" ∧ pluralize "story" = "stories" ∧
      pluralize "box" = "boxes" ∧ pluralize "button" = "buttons") ∧
    (∀ w, endsSibilant w = true → pluralize w = w ++ "es") ∧
    (∀ w, endsConsY w = true → pluralize w = String.mk w.data.dropLast ++ "ies") ∧
    (∀ w, endsSibilant w = false → endsConsY w = false → pluralize w = w ++ "s") ∧
    (∀ pageName (fields : List (String × FieldMapping)),
      (pageToStrapiSchema pageName fields).pluralName = pluralize pageName) ∧
    (∀ name (c : CollectionMapping),
      (collectionToStrapiSchema name c).pluralName = strReplaceAll name "_" "-") :=
  ⟨⟨by decide, by decide, by decide, by decide⟩,
    fun _ h => pluralize_sibilant h,
    fun _ h => pluralize_consY h,
    fun _ h1 h2 => pluralize_default h1 h2,
    fun _ _ => rfl, fun _ _ => rfl⟩

/-- C5 witness: each suffix rule of the theorem exercised at a concrete
word. -/
theorem c5_witness :
    pluralize "dish" = "dishes" ∧ pluralize "city" = "cities" ∧
      pluralize "door" = "doors" :=
  ⟨c5_pluralization.2.1 "dish" (by decide),
    (c5_pluralization.2.2.1 "city" (by decide)).trans (by decide),
    c5_pluralization.2.2.2.1 "door" (by decide) (by decide)⟩

/-- C5 counterexample: the pipeline's repeating entry for two
`feature-category` siblings is named `feature_categorys` by the detector
and `feature-categorys` by the compiler — not the suffix-rule plural
`feature-categories`. -/
theorem c5_counterexample :
    (detectEditableFields featTree).collections = [("feature_categorys", featCM)] ∧
    (collectionToStrapiSchema "feature_categorys" featCM).kind = "collectionType" ∧
    (collectionToStrapiSchema "feature_categorys" featCM).singularName =
      "feature-category" ∧
    (collectionToStrapiSchema "feature_categorys" featCM).pluralName =
      "feature-categorys" ∧
    pluralize "feature-category" = "feature-categories" ∧
    "feature-categorys" ≠ "feature-categories" := by
  refine ⟨by decide, rfl, by decide, by decide, by decide, by decide⟩

/-! ## C3 — collection detection -/

/-- C3 (amended): for the three-sibling `story-card` markup whose
sub-elements carry semantic classes (an image wrapper whose class contains
`image`, a classed heading and a classed paragraph longer than 20
characters), detection yields exactly one collection — `story_cards` with
image/title/description fields — and registers no individual field for
any sub-element. -/
theorem c3_collection_detection :
    ((descOf [] storyTree).filter (fun pn => hasClass pn.2 "story-card")).length
        = 3 ∧
    (detectEditableFields storyTree).collections =
      [("story_cards",
        { selector := ".story-card",
          fields := [("image", ".card-image"), ("title", ".card-title"),
            ("description", ".card-text")] })] ∧
    (detectEditableFields storyTree).fields = [] :=
  ⟨by decide, by decide, rfl⟩

/-- C3 counterexample: three sibling `story-card` elements, each
containing an image, a heading and a paragraph longer than 20 characters —
but with classless sub-elements — yield no collection at all, not exactly
one. -/
theorem c3_counterexample :
    ((descOf [] bareStoryTree).filter
        (fun pn => hasClass pn.2 "story-card")).length = 3 ∧
    ((descOf [] bareStoryTree).filter (fun pn => hasClass pn.2 "story-card")).all
        (fun pn =>
          (descOf pn.1 pn.2).any (fun q => isTag q.2 "img") &&
            (descOf pn.1 pn.2).any (fun q => isHeadingTag q.2) &&
            (descOf pn.1 pn.2).any (fun q =>
              isTag q.2 "p" && decide ((strTrim (textContent q.2)).length > 20)))
        = true ∧
    (detectEditableFields bareStoryTree).collections = [] :=
  ⟨by decide, by decide, rfl⟩

/-! ## C7 — decorative image exclusion -/

theorem headingPass_no_image (root : Node) (owned : List Path) :
    ∀ (hs : List (Path × Node)) (idx : Nat) (acc : List (String × FieldMapping)),
      (∀ e ∈ acc, e.2.type ≠ "image") →
      ∀ e ∈ headingPass root owned hs idx acc, e.2.type ≠ "image" := by
  intro hs
  induction hs with
  | nil => intro idx acc hacc e he; exact hacc e he
  | cons pn rest ih =>
    obtain ⟨p, n⟩ := pn
    intro idx acc hacc e he
    rw [headingPass.eq_def] at he
    dsimp only at he
    split at he
    · exact ih _ _ hacc e he
    · split at he
      · refine ih _ _ ?_ e he
        intro e' he'
        rcases mem_upsert he' with h | h
        · exact hacc e' h
        · rw [h]
          show ("plain" : String) ≠ "image"
          decide
      · exact ih _ _ hacc e he

theorem paragraphPass_no_image (root : Node) (owned : List Path) :
    ∀ (ps : List (Path × Node)) (acc : List (String × FieldMapping)),
      (∀ e ∈ acc, e.2.type ≠ "image") →
      ∀ e ∈ paragraphPass root owned ps acc, e.2.type ≠ "image" := by
  intro ps
  induction ps with
  | nil => intro acc hacc e he; exact hacc e he
  | cons pn rest ih =>
    obtain ⟨p, n⟩ := pn
    intro acc hacc e he
    rw [paragraphPass] at he
    split at he
    · exact ih _ hacc e he
    · dsimp only at he
      split at he
      · split at he
        · refine ih _ ?_ e he
          intro e' he'
          rcases mem_upsert he' with h | h
          · exact hacc e' h
          · rw [h]
            show (if _ = true then "rich" else "plain") ≠ "image"
            split
            · decide
            · decide
        · exact ih _ hacc e he
      · exact ih _ hacc e he

theorem buttonPass_no_image (root : Node) (owned : List Path) :
    ∀ (bs : List (Path × Node)) (acc : List (String × FieldMapping)),
      (∀ e ∈ acc, e.2.type ≠ "image") →
      ∀ e ∈ buttonPass root owned bs acc, e.2.type ≠ "image" := by
  intro bs
  induction bs with
  | nil => intro acc hacc e he; exact hacc e he
  | cons pn rest ih =>
    obtain ⟨p, n⟩ := pn
    intro acc hacc e he
    rw [buttonPass] at he
    split at he
    · exact ih _ hacc e he
    · dsimp only at he
      split at he
      · refine ih _ ?_ e he
        intro e' he'
        rcases mem_upsert he' with h | h
        · exact hacc e' h
        · rw [h]
          show ("plain" : String) ≠ "image"
          decide
      · exact ih _ hacc e he

theorem imagePass_skips (root : Node) (owned : List Path) :
    ∀ (imgs : List (Path × Node)) (acc : List (String × FieldMapping)),
      (∀ pn ∈ imgs, isDecorativeImage root pn.1 = true) →
      imagePass root owned imgs acc = acc := by
  intro imgs
  induction imgs with
  | nil => intro acc _; rfl
  | cons pn rest ih =>
    obtain ⟨p, n⟩ := pn
    intro acc hdec
    have hrest : ∀ pn ∈ rest, isDecorativeImage root pn.1 = true := by
      intro x hx; exact hdec x (List.mem_cons_of_mem _ hx)
    have hp : isDecorativeImage root p = true := hdec (p, n) (List.mem_cons_self _ _)
    by_cases h1 : p ∈ owned
    · rw [imagePass, if_pos h1]
      exact ih _ hrest
    · by_cases h2 : isInsideButton root p = true
      · rw [imagePass, if_neg h1, if_pos h2]
        exact ih _ hrest
      · rw [imagePass, if_neg h1, if_neg h2, if_pos hp]
        exact ih _ hrest

theorem decorative_of_navlogo {root : Node} {p : Path}
    (h : (strIncludes ((parentClassAttr root p).getD "") "nav" ||
        strIncludes ((parentClassAttr root p).getD "") "logo") = true) :
    isDecorativeImage root p = true := by
  unfold isDecorativeImage
  simp only [Bool.or_eq_true] at h
  rcases h with h' | h'
  · exact List.any_eq_true.mpr ⟨"nav", by decide, by simp [h']⟩
  · exact List.any_eq_true.mpr ⟨"logo", by decide, by simp [h']⟩

theorem passes_no_image (root : Node) (owned : List Path)
    (hs ps bs : List (Path × Node))
    (h : ∀ pn ∈ (descOf [] root).filter (fun pn => isTag pn.2 "img"),
      isDecorativeImage root pn.1 = true) :
    ∀ e ∈ buttonPass root owned bs
        (imagePass root owned
          ((descOf [] root).filter (fun pn => isTag pn.2 "img"))
          (paragraphPass root owned ps (headingPass root owned hs 0 []))),
      e.2.type ≠ "image" := by
  have h1 := headingPass_no_image root owned hs 0 [] (by intro e he; simp at he)
  have h2 := paragraphPass_no_image root owned ps _ h1
  have h3 : ∀ e ∈ imagePass root owned
      ((descOf [] root).filter (fun pn => isTag pn.2 "img"))
      (paragraphPass root owned ps (headingPass root owned hs 0 [])),
      e.2.type ≠ "image" := by
    rw [imagePass_skips root owned _ _ h]
    exact h2
  exact buttonPass_no_image root owned bs _ h3

/-- C7 (amended): the decorative exclusion tests only the image's direct
parent — when every image of the page sits directly below an element
whose class contains `nav` or `logo`, no image field is emitted at all. -/
theorem c7_decorative_exclusion (root : Node)
    (h : allImgsUnderNavLogo root = true) :
    ∀ k fm, (k, fm) ∈ (detectEditableFields root).fields → fm.type ≠ "image" := by
  intro k fm hmem
  unfold detectEditableFields at hmem
  dsimp only at hmem
  have hdec : ∀ pn ∈ (descOf [] root).filter (fun pn => isTag pn.2 "img"),
      isDecorativeImage root pn.1 = true := by
    intro pn hpn
    unfold allImgsUnderNavLogo at h
    exact decorative_of_navlogo (List.all_eq_true.mp h pn hpn)
  exact passes_no_image root _ _ _ _ hdec (k, fm) hmem

/-- C7 witness: the theorem at a page whose only image sits directly
inside a `nav-menu` container, where indeed no image field is emitted. -/
theorem c7_witness :
    allImgsUnderNavLogo navDirectTree = true ∧
      ∀ fm, ("menu_image", fm) ∈ (detectEditableFields navDirectTree).fields →
        fm.type ≠ "image" :=
  ⟨by decide, fun fm => c7_decorative_exclusion navDirectTree (by decide) "menu_image" fm⟩

/-- C7 counterexample: an image nested two levels below a `navbar`
container (class containing `nav`) with a non-decorative direct parent is
still emitted as an individual image field. -/
theorem c7_counterexample :
    alookup (detectEditableFields navTree).fields "imgwrap_image" =
        some { selector := ".imgwrap", type := "image", editable := true } ∧
    isTag ((nodeAt [0, 0, 0] navTree).getD (.text "")) "img" = true ∧
    hasClass ((nodeAt [0] navTree).getD (.text "")) "navbar" = true ∧
    strIncludes "navbar" "nav" = true ∧
    allImgsUnderNavLogo navTree = false :=
  ⟨by decide, by decide, by decide, by decide, by decide⟩

/-! ## C9 — extractor output uses only manifest identifiers -/

theorem extractFields_keys (root : Node) :
    ∀ (fl : List (String × FieldMapping)) (acc : List (String × String))
      (k : String),
      k ∈ (fl.foldl (extractFieldStep root) acc).map Prod.fst →
      k ∈ acc.map Prod.fst ∨ k ∈ fl.map Prod.fst := by
  intro fl
  induction fl with
  | nil => intro acc k h; exact Or.inl h
  | cons e fl' ih =>
    intro acc k h
    rw [List.foldl_cons] at h
    rcases ih _ k h with h' | h'
    · unfold extractFieldStep at h'
      split at h'
      · split at h'
        · rcases mem_keys_upsert h' with h'' | h''
          · exact Or.inr (by simp [h''])
          · exact Or.inl h''
        · rcases mem_keys_upsert h' with h'' | h''
          · exact Or.inr (by simp [h''])
          · exact Or.inl h''
      · exact Or.inl h'
    · exact Or.inr (List.mem_cons_of_mem _ h')

theorem extractItem_keys (it : Path × Node) :
    ∀ (fields : List (String × String)) (item : List (String × String))
      (k : String),
      k ∈ (fields.foldl (extractItemField it) item).map Prod.fst →
      k ∈ item.map Prod.fst ∨ k ∈ fields.map Prod.fst := by
  intro fields
  induction fields with
  | nil => intro item k h; exact Or.inl h
  | cons e fl' ih =>
    intro item k h
    rw [List.foldl_cons] at h
    rcases ih _ k h with h' | h'
    · unfold extractItemField at h'
      split at h'
      · split at h'
        · rcases mem_keys_upsert h' with h'' | h''
          · exact Or.inr (by simp [h''])
          · exact Or.inl h''
        · split at h'
          · rcases mem_keys_upsert h' with h'' | h''
            · exact Or.inr (by simp [h''])
            · exact Or.inl h''
          · rcases mem_keys_upsert h' with h'' | h''
            · exact Or.inr (by simp [h''])
            · exact Or.inl h''
      · exact Or.inl h'
    · exact Or.inr (List.mem_cons_of_mem _ h')

theorem extractColl_items (fields : List (String × String)) :
    ∀ (ms : List (Path × Node)) (items0 : List (List (String × String)))
      (item : List (String × String)),
      item ∈ ms.foldl (extractCollStep fields) items0 →
      item ∈ items0 ∨ (∃ it, item = extractItem it fields ∧ item ≠ []) := by
  intro ms
  induction ms with
  | nil => intro items0 item h; exact Or.inl h
  | cons it ms' ih =>
    intro items0 item h
    rw [List.foldl_cons] at h
    rcases ih _ item h with h' | h'
    · unfold extractCollStep at h'
      dsimp only at h'
      split at h'
      · rcases List.mem_append.mp h' with h'' | h''
        · exact Or.inl h''
        · simp only [List.mem_singleton] at h''
          rename_i hne
          exact Or.inr ⟨it, h'', h'' ▸ hne⟩
      · exact Or.inl h'
    · exact Or.inr h'

theorem extractCollections_entries (root : Node) :
    ∀ (cl : List (String × CollectionMapping))
      (acc : List (String × List (List (String × String))))
      (k : String) (items : List (List (String × String))),
      (k, items) ∈ cl.foldl (extractPageCollStep root) acc →
      (k, items) ∈ acc ∨
        (∃ cm, (k, cm) ∈ cl ∧ items = extractColl root cm ∧ items ≠ []) := by
  intro cl
  induction cl with
  | nil => intro acc k items h; exact Or.inl h
  | cons e cl' ih =>
    intro acc k items h
    rw [List.foldl_cons] at h
    rcases ih _ k items h with h' | h'
    · unfold extractPageCollStep at h'
      dsimp only at h'
      split at h'
      · rcases mem_upsert h' with h'' | h''
        · exact Or.inl h''
        · rename_i hne
          have hk : k = e.1 ∧ items = extractColl root e.2 := by
            constructor
            · exact congrArg Prod.fst h''
            · exact congrArg Prod.snd h''
          exact Or.inr ⟨e.2, by rw [hk.1]; exact List.mem_cons_self _ _,
            hk.2, hk.2 ▸ hne⟩
      · exact Or.inl h'
    · rcases h' with ⟨cm, hcm, hrest⟩
      exact Or.inr ⟨cm, List.mem_cons_of_mem _ hcm, hrest⟩

/-- C9: the extractor's output uses only manifest identifiers — its field
keys come from the manifest's fields, its collection keys from the
manifest's collections, every item key from that collection's field map,
and collections with zero extracted items are omitted entirely. -/
theorem c9_extractor_identifiers (root : Node) (pm : PageManifest) :
    (∀ k, k ∈ (extractContentFromHTML root pm).fields.map Prod.fst →
      k ∈ pm.fields.map Prod.fst) ∧
    (∀ k items, (k, items) ∈ (extractContentFromHTML root pm).collections →
      items ≠ [] ∧
        ∃ cm, (k, cm) ∈ pm.collections ∧
          ∀ item ∈ items, ∀ fk, fk ∈ item.map Prod.fst →
            fk ∈ cm.fields.map Prod.fst) := by
  constructor
  · intro k h
    rcases extractFields_keys root pm.fields [] k h with h' | h'
    · simp at h'
    · exact h'
  · intro k items h
    rcases extractCollections_entries root pm.collections [] k items h with h' | h'
    · simp at h'
    · rcases h' with ⟨cm, hcm, hitems, hne⟩
      refine ⟨hne, cm, hcm, ?_⟩
      intro item hitem fk hfk
      rw [hitems] at hitem
      unfold extractColl at hitem
      rcases extractColl_items cm.fields (matchesOf root cm.selector) [] item hitem
        with h'' | h''
      · simp at h''
      · rcases h'' with ⟨it, hit, _⟩
        rw [hit] at hfk
        rcases extractItem_keys it cm.fields [] fk hfk with h3 | h3
        · simp at h3
        · exact h3

/-- C9 witness: the theorem at the nav page and its inferred manifest —
the one extracted field key is a manifest field key. -/
theorem c9_witness :
    "imgwrap_image" ∈ navPM.fields.map Prod.fst :=
  (c9_extractor_identifiers navTree navPM).1 "imgwrap_image" (by decide)

/-! ## C1 — identifier normalization and cross-artifact reuse -/

theorem gp_single_normalization :
    ∀ (ca : Option String) (ci : ClassInfo), getPrimaryClass ca = some ci →
      ci.fieldName = strReplaceAll ci.selector "-" "_" := by
  intro ca ci h
  cases ca with
  | none => simp [getPrimaryClass] at h
  | some s =>
    unfold getPrimaryClass at h
    dsimp only at h
    split at h
    · simp at h
    · injection h with h'
      rw [← h']

theorem collAttr_keys_fwd :
    ∀ (fl : List (String × String)) (acc : List (String × StrapiAttr))
      (a : String),
      a ∈ (fl.foldl collAttrStep acc).map Prod.fst →
      a ∈ acc.map Prod.fst ∨ a ∈ fl.map Prod.fst := by
  intro fl
  induction fl with
  | nil => intro acc a h; exact Or.inl h
  | cons e fl' ih =>
    intro acc a h
    rw [List.foldl_cons] at h
    rcases ih _ a h with h' | h'
    · rcases mem_keys_upsert h' with h'' | h''
      · exact Or.inr (by simp [h''])
      · exact Or.inl h''
    · exact Or.inr (List.mem_cons_of_mem _ h')

theorem collAttr_keys_bwd :
    ∀ (fl : List (String × String)) (acc : List (String × StrapiAttr))
      (a : String),
      a ∈ acc.map Prod.fst ∨ a ∈ fl.map Prod.fst →
      a ∈ (fl.foldl collAttrStep acc).map Prod.fst := by
  intro fl
  induction fl with
  | nil =>
    intro acc a h
    rcases h with h | h
    · exact h
    · simp at h
  | cons e fl' ih =>
    intro acc a h
    rw [List.foldl_cons]
    rcases h with h | h
    · exact ih _ a (Or.inl (keys_upsert_mono e.1 _ h))
    · rcases List.mem_cons.mp h with h' | h'
      · refine ih _ a (Or.inl ?_)
        rw [h']
        exact self_mem_keys_upsert _ _ _
      · exact ih _ a (Or.inr h')

theorem seedColl_mono :
    ∀ (cl : List (String × List (List (String × String))))
      (sd : List (String × SeedVal)) (a : String),
      a ∈ sd.map Prod.fst → a ∈ (cl.foldl seedCollStep sd).map Prod.fst := by
  intro cl
  induction cl with
  | nil => intro sd a h; exact h
  | cons e cl' ih =>
    intro sd a h
    rw [List.foldl_cons]
    exact ih _ a (keys_upsert_mono e.1 _ h)

theorem seedColl_self :
    ∀ (cl : List (String × List (List (String × String))))
      (sd : List (String × SeedVal)) (cn : String)
      (x : List (List (String × String))),
      (cn, x) ∈ cl → cn ∈ (cl.foldl seedCollStep sd).map Prod.fst := by
  intro cl
  induction cl with
  | nil => intro sd cn x h; simp at h
  | cons e cl' ih =>
    intro sd cn x h
    rw [List.foldl_cons]
    rcases List.mem_cons.mp h with h' | h'
    · refine seedColl_mono cl' _ cn ?_
      have : cn = e.1 := congrArg Prod.fst h'
      rw [this]
      exact self_mem_keys_upsert _ _ _
    · exact ih _ cn x h'

theorem seedPage_mono :
    ∀ (pages : List (String × PageContent)) (sd : List (String × SeedVal))
      (a : String),
      a ∈ sd.map Prod.fst → a ∈ (pages.foldl seedPageStep sd).map Prod.fst := by
  intro pages
  induction pages with
  | nil => intro sd a h; exact h
  | cons e pages' ih =>
    intro sd a h
    rw [List.foldl_cons]
    refine ih _ a ?_
    unfold seedPageStep
    dsimp only
    refine seedColl_mono _ _ a ?_
    split
    · exact keys_upsert_mono e.1 _ h
    · exact h

theorem seed_collection_keys :
    ∀ (pages : List (String × PageContent)) (sd : List (String × SeedVal))
      (pn : String) (pc : PageContent) (cn : String)
      (items : List (List (String × String))),
      (pn, pc) ∈ pages → (cn, items) ∈ pc.collections →
      cn ∈ (pages.foldl seedPageStep sd).map Prod.fst := by
  intro pages
  induction pages with
  | nil => intro sd pn pc cn items h _; simp at h
  | cons e pages' ih =>
    intro sd pn pc cn items hmem hcoll
    rw [List.foldl_cons]
    rcases List.mem_cons.mp hmem with h' | h'
    · refine seedPage_mono pages' _ cn ?_
      unfold seedPageStep
      dsimp only
      have hpc : pc = e.2 := congrArg Prod.snd h'
      exact seedColl_self _ _ cn items (hpc ▸ hcoll)
    · exact ih _ pn pc cn items h' hcoll

/-- C1 (amended): a field/collection identifier is produced by one
separator normalization at inference (dashes to underscores — no
lowercasing), and is reused verbatim in the template's `content.*` and
`item.*` bindings, in the backend schema's attribute names and in the
seed-data keys; the backend schema's collection-level names, however, are
re-derived (underscores to dashes, trailing-`s` stripping). -/
theorem c1_identifier_consistency :
    (∀ (ca : Option String) (ci : ClassInfo), getPrimaryClass ca = some ci →
      ci.fieldName = strReplaceAll ci.selector "-" "_") ∧
    (∀ (name : String) (cm : CollectionMapping) (a : String),
      a ∈ (collectionToStrapiSchema name cm).attributes.map Prod.fst ↔
        a ∈ cm.fields.map Prod.fst) ∧
    (∀ (ec : ExtractedContent) (pn : String) (pc : PageContent) (cn : String)
      (items : List (List (String × String))),
      (pn, pc) ∈ ec.pages → (cn, items) ∈ pc.collections →
      cn ∈ (formatForStrapi ec).map Prod.fst) ∧
    transformVueTemplate storyPM storyTree = storyTemplateExpected ∧
    transformVueTemplate navPM navTree = navTemplateExpected := by
  refine ⟨gp_single_normalization, fun name cm a => ?_,
    fun ec pn pc cn items h1 h2 => seed_collection_keys ec.pages [] pn pc cn items h1 h2,
    rfl, rfl⟩
  constructor
  · intro h
    rcases collAttr_keys_fwd cm.fields [] a h with h' | h'
    · simp at h'
    · exact h'
  · intro h
    exact collAttr_keys_bwd cm.fields [] a (Or.inr h)

/-- C1 witness: the theorem's parts exercised on the story and feature
pages. -/
theorem c1_witness :
    ClassInfo.fieldName ⟨"story-card", "story_card"⟩ =
        strReplaceAll "story-card" "-" "_" ∧
      ("title" ∈ (collectionToStrapiSchema "feature_categorys" featCM).attributes.map
        Prod.fst) ∧
      "story_cards" ∈ (formatForStrapi storyExtracted).map Prod.fst :=
  ⟨c1_identifier_consistency.1 (some "story-card") ⟨"story-card", "story_card"⟩
      (by decide),
    (c1_identifier_consistency.2.1 "feature_categorys" featCM "title").mpr (by decide),
    c1_identifier_consistency.2.2.1 storyExtracted "index"
      (extractContentFromHTML storyTree storyPM) "story_cards"
      ((alookup (extractContentFromHTML storyTree storyPM).collections
          "story_cards").getD [])
      (by decide) (by decide)⟩

/-- C1 counterexample: the manifest names the collection `story_cards`,
but the backend schema's `collectionName` is the re-derived
`story-cards`; and the inference-time normalization does not lowercase. -/
theorem c1_counterexample :
    (detectEditableFields storyTree).collections.map Prod.fst = ["story_cards"] ∧
    ((alookup (manifestToSchemas storyManifest) "story_cards").map
        StrapiSchema.collectionName) = some "story-cards" ∧
    "story-cards" ≠ "story_cards" ∧
    getPrimaryClass (some "Hero-Title") = some ⟨"Hero-Title", "Hero_Title"⟩ ∧
    strToLower "Hero_Title" ≠ "Hero_Title" :=
  ⟨by decide, by decide, by decide, by decide, by decide⟩

/-! ## C2 — selector resolution

The emitted selectors are (a) `.cls` where `cls` is a class the inspected
element actually carries (via `getPrimaryClass`), (b) the element's own
lowercased tag name, or (c) the literal `.c_button` on elements selected by
that very class — so each top-level selector re-resolves by construction.
The lemmas below follow that route: first the split/join round trip behind
`getPrimaryClass`, then tree-membership facts, then one lemma per
selector-emission site, then one lemma per detection pass. -/

theorem strMkData (s : String) : String.mk s.data = s := rfl

theorem splitByP_no_sep {p : Char → Bool} :
    ∀ (l piece : List Char), piece ∈ splitByP p l → ∀ c ∈ piece, p c = false := by
  intro l
  induction l with
  | nil =>
    intro piece hp c hc
    simp only [splitByP, List.mem_singleton] at hp
    rw [hp] at hc
    simp at hc
  | cons a l' ih =>
    intro piece hp c hc
    rw [splitByP] at hp
    split at hp
    · rcases List.mem_cons.mp hp with h | h
      · rw [h] at hc; simp at hc
      · exact ih piece h c hc
    · rename_i hpa
      split at hp
      · rename_i hnil
        simp only [List.mem_singleton] at hp
        rw [hp] at hc
        rcases List.mem_singleton.mp hc with rfl
        simpa using hpa
      · rename_i h t hcons
        rcases List.mem_cons.mp hp with h' | h'
        · rw [h'] at hc
          rcases List.mem_cons.mp hc with rfl | hc'
          · simpa using hpa
          · exact ih h (by rw [hcons]; exact List.mem_cons_self _ _) c hc'
        · exact ih piece (by rw [hcons]; exact List.mem_cons_of_mem _ h') c hc

theorem splitCh_single {sep : Char} :
    ∀ (l : List Char), (∀ c ∈ l, ¬c = sep) → splitCh sep l = [l] := by
  intro l
  induction l with
  | nil => intro; rfl
  | cons a l' ih =>
    intro h
    have ha : ¬a = sep := h a (List.mem_cons_self _ _)
    have hrest := ih (fun c hc => h c (List.mem_cons_of_mem _ hc))
    unfold splitCh at hrest ⊢
    rw [splitByP]
    rw [if_neg (by simpa using ha)]
    rw [hrest]

theorem splitCh_append {sep : Char} :
    ∀ (l rest : List Char), (∀ c ∈ l, ¬c = sep) →
      splitCh sep (l ++ sep :: rest) = l :: splitCh sep rest := by
  intro l
  induction l with
  | nil =>
    intro rest _
    unfold splitCh
    rw [List.nil_append, splitByP]
    rw [if_pos (by simp)]
  | cons a l' ih =>
    intro rest h
    have ha : ¬a = sep := h a (List.mem_cons_self _ _)
    have hrest := ih rest (fun c hc => h c (List.mem_cons_of_mem _ hc))
    unfold splitCh at hrest ⊢
    rw [List.cons_append, splitByP]
    rw [if_neg (by simpa using ha)]
    rw [hrest]

theorem splitCh_joinSep {sep : Char} :
    ∀ (ps : List (List Char)), ps ≠ [] →
      (∀ piece ∈ ps, ∀ c ∈ piece, ¬c = sep) →
      splitCh sep (joinSep sep ps) = ps := by
  intro ps
  induction ps with
  | nil => intro h; exact absurd rfl h
  | cons p ps' ih =>
    intro _ h
    cases ps' with
    | nil =>
      show splitCh sep p = [p]
      exact splitCh_single p (h p (List.mem_cons_self _ _))
    | cons q qs =>
      show splitCh sep (p ++ sep :: joinSep sep (q :: qs)) = p :: (q :: qs)
      rw [splitCh_append p _ (h p (List.mem_cons_self _ _))]
      rw [ih (by simp) (fun piece hp => h piece (List.mem_cons_of_mem _ hp))]

theorem strSplitSpace_no_space :
    ∀ (s : String) (x : String), x ∈ strSplitSpace s → ∀ c ∈ x.data, ¬c = ' ' := by
  intro s x hx c hc
  unfold strSplitSpace at hx
  rcases List.mem_map.mp hx with ⟨piece, hpiece, hxp⟩
  have := splitByP_no_sep _ piece hpiece c (by rw [← hxp] at hc; exact hc)
  simpa using this

theorem strSplitSpace_strJoinSpace (ps : List String) (hne : ps ≠ [])
    (h : ∀ x ∈ ps, ∀ c ∈ x.data, ¬c = ' ') :
    strSplitSpace (strJoinSpace ps) = ps := by
  unfold strSplitSpace strJoinSpace
  show (splitCh ' ' (String.mk (joinSep ' ' (ps.map String.data))).data).map
      String.mk = ps
  have hdata : (String.mk (joinSep ' ' (ps.map String.data))).data =
      joinSep ' ' (ps.map String.data) := rfl
  rw [hdata]
  rw [splitCh_joinSep (ps.map String.data) (by simpa using hne) ?hp]
  case hp =>
    intro piece hpiece c hc
    rcases List.mem_map.mp hpiece with ⟨x, hx, hxp⟩
    exact h x hx c (by rw [hxp]; exact hc)
  rw [List.map_map]
  calc ps.map (String.mk ∘ String.data)
      = ps.map id := List.map_congr_left (fun x _ => strMkData x)
    _ = ps := List.map_id ps

theorem gp_sel_mem {ca : String} {ci : ClassInfo}
    (h : getPrimaryClass (some ca) = some ci) :
    ci.selector ∈ strSplitSpace ca := by
  unfold getPrimaryClass cleanClassName at h
  dsimp only at h
  set pieces := ((strSplitSpace ca).filter
    (fun cls => !(strStartsWith cls "c-") && !(strStartsWith cls "w-"))).filter
    (fun cls => cls.length > 0) with hpieces
  by_cases hp : pieces = []
  · rw [hp] at h
    have : (strSplitSpace (strJoinSpace ([] : List String))).filter
        (fun c => c.length > 0) = [] := by decide
    rw [this] at h
    simp at h
  · have hfree : ∀ x ∈ pieces, ∀ c ∈ x.data, ¬c = ' ' := by
      intro x hx
      have : x ∈ strSplitSpace ca :=
        List.mem_of_mem_filter (List.mem_of_mem_filter hx)
      exact strSplitSpace_no_space ca x this
    rw [strSplitSpace_strJoinSpace pieces hp hfree] at h
    split at h
    · simp at h
    · rename_i original rest heq
      injection h with h'
      have : ci.selector = original := by rw [← h']
      rw [this]
      have horig : original ∈ pieces.filter (fun c => c.length > 0) := by
        rw [heq]; exact List.mem_cons_self _ _
      have : original ∈ pieces := List.mem_of_mem_filter horig
      exact List.mem_of_mem_filter (List.mem_of_mem_filter this)

theorem gp_hasClass {n : Node} {ci : ClassInfo}
    (h : getPrimaryClass (attrN n "class") = some ci) :
    hasClass n ci.selector = true := by
  cases hcls : attrN n "class" with
  | none => rw [hcls] at h; simp [getPrimaryClass] at h
  | some ca =>
    rw [hcls] at h
    have hmem := gp_sel_mem h
    unfold hasClass classListN
    rw [hcls]
    exact List.any_eq_true.mpr ⟨ci.selector, hmem, by simp⟩

theorem selMatches_dot (cls : String) (n : Node) :
    selMatches ("." ++ cls) n = hasClass n cls := by
  have hd : ("." ++ cls).data = '.' :: cls.data := by
    rw [strData_append]; rfl
  unfold selMatches
  rw [hd]
  show hasClass n (String.mk cls.data) = hasClass n cls
  rw [strMkData]

theorem elemsAtL_sub :
    ∀ (cs : List Node) (base : Path) (k j : Nat) (c : Node),
      cs.get? j = some c →
      ∀ x ∈ elemsAt (base ++ [k + j]) c, x ∈ elemsAtL base k cs := by
  intro cs
  induction cs with
  | nil => intro base k j c hget; simp at hget
  | cons d cs' ih =>
    intro base k j c hget x hx
    cases j with
    | zero =>
      simp only [List.get?] at hget
      injection hget with hget
      subst hget
      show x ∈ elemsAt (base ++ [k]) d ++ elemsAtL base (k + 1) cs'
      exact List.mem_append.mpr (Or.inl (by simpa using hx))
    | succ j' =>
      simp only [List.get?] at hget
      have := ih base (k + 1) j' c hget x
        (by rw [show k + 1 + j' = k + (j' + 1) by omega]; exact hx)
      show x ∈ elemsAt (base ++ [k]) d ++ elemsAtL base (k + 1) cs'
      exact List.mem_append.mpr (Or.inr this)

theorem nodeAt_mem_elems :
    ∀ (q base : Path) (n : Node) (t : String) (a : List (String × String))
      (cs : List Node),
      nodeAt q n = some (.elem t a cs) →
      (base ++ q, Node.elem t a cs) ∈ elemsAt base n := by
  intro q
  induction q with
  | nil =>
    intro base n t a cs h
    simp only [nodeAt] at h
    injection h with h
    subst h
    rw [List.append_nil]
    exact List.mem_cons_self _ _
  | cons i q' ih =>
    intro base n t a cs h
    cases n with
    | text s => simp [nodeAt] at h
    | elem t' a' cs' =>
      simp only [nodeAt] at h
      cases hget : cs'.get? i with
      | none => rw [hget] at h; simp at h
      | some c =>
        rw [hget] at h
        have hmem := ih (base ++ [i]) c t a cs h
        have hsub := elemsAtL_sub cs' base 0 i c hget (base ++ [i] ++ q', .elem t a cs)
          (by simpa using hmem)
        show (base ++ i :: q', Node.elem t a cs) ∈
          (base, Node.elem t' a' cs') :: elemsAtL base 0 cs'
        refine List.mem_cons_of_mem _ ?_
        have : base ++ [i] ++ q' = base ++ i :: q' := by simp
        rw [← this]
        exact hsub

theorem desc_sub_allElems {root : Node} {x : Path × Node}
    (h : x ∈ descOf [] root) : x ∈ allElems root := by
  unfold allElems
  cases root with
  | text s => simp [descOf] at h
  | elem t a cs =>
    show x ∈ ([], Node.elem t a cs) :: elemsAtL [] 0 cs
    exact List.mem_cons_of_mem _ h

theorem resolves_of_mem {root : Node} {p : Path} {n : Node} {sel : String}
    (hmem : (p, n) ∈ allElems root) (hsel : selMatches sel n = true) :
    matchesOf root sel ≠ [] := by
  have : (p, n) ∈ matchesOf root sel :=
    List.mem_filter.mpr ⟨hmem, by simpa using hsel⟩
  exact List.ne_nil_of_mem this

theorem selfAncestors_nodeAt {root : Node} {p q : Path} {m : Node}
    (h : (q, m) ∈ selfAncestors root p) : nodeAt q root = some m := by
  unfold selfAncestors at h
  rcases List.mem_filterMap.mp h with ⟨q', _, hq'⟩
  cases hnode : nodeAt q' root with
  | none => rw [hnode] at hq'; simp at hq'
  | some m' =>
    rw [hnode] at hq'
    simp only [Option.map_some'] at hq'
    injection hq' with hq'
    have h1 : q' = q := congrArg Prod.fst hq'
    have h2 : m' = m := congrArg Prod.snd hq'
    rw [← h1, ← h2]
    exact hnode

theorem attrN_some_elem {n : Node} {k v : String} (h : attrN n k = some v) :
    ∃ t a cs, n = Node.elem t a cs := by
  cases n with
  | elem t a cs => exact ⟨t, a, cs, rfl⟩
  | text s => simp [attrN] at h

/-- Emission site (a): a selector built from the element's own primary
class resolves, because the element itself carries that class. -/
theorem resolve_gp_self {root : Node} {p : Path} {n : Node} {ci : ClassInfo}
    (hmem : (p, n) ∈ allElems root)
    (hci : getPrimaryClass (attrN n "class") = some ci) :
    matchesOf root ("." ++ ci.selector) ≠ [] :=
  resolves_of_mem hmem (by rw [selMatches_dot]; exact gp_hasClass hci)

/-- Emission site (b): a selector built from the primary class of any
node reachable by `nodeAt` resolves. -/
theorem resolve_gp_node {root : Node} {q : Path} {m : Node} {ci : ClassInfo}
    (hnode : nodeAt q root = some m)
    (hci : getPrimaryClass (attrN m "class") = some ci) :
    matchesOf root ("." ++ ci.selector) ≠ [] := by
  have hattr : ∃ ca, attrN m "class" = some ca := by
    cases hcls : attrN m "class" with
    | none => rw [hcls] at hci; simp [getPrimaryClass] at hci
    | some ca => exact ⟨ca, rfl⟩
  rcases hattr with ⟨ca, hca⟩
  rcases attrN_some_elem hca with ⟨t, a, cs, rfl⟩
  exact resolve_gp_self (nodeAt_mem_elems q [] root t a cs hnode) hci

/-- Emission site (c): a selector built from a `closest` ancestor's
primary class resolves. -/
theorem resolve_gp_ancestor {root : Node} {p q : Path} {m : Node}
    {ci : ClassInfo} (hanc : (q, m) ∈ selfAncestors root p)
    (hci : getPrimaryClass (attrN m "class") = some ci) :
    matchesOf root ("." ++ ci.selector) ≠ [] :=
  resolve_gp_node (selfAncestors_nodeAt hanc) hci

/-- Emission site (d): a selector built from the direct parent's primary
class resolves. -/
theorem resolve_gp_parent {root : Node} {p : Path} {ci : ClassInfo}
    (hci : getPrimaryClass (parentClassAttr root p) = some ci) :
    matchesOf root ("." ++ ci.selector) ≠ [] := by
  unfold parentClassAttr at hci
  cases hpar : parentOf root p with
  | none => rw [hpar] at hci; simp [getPrimaryClass] at hci
  | some m =>
    rw [hpar] at hci
    unfold parentOf at hpar
    cases p with
    | nil => simp at hpar
    | cons i p' =>
      exact resolve_gp_node hpar hci

/-- Emission site (e): the element's own lowercased tag name resolves,
for parsed (well-formed) tags. -/
theorem resolve_tag {root : Node} {p : Path} {t : String}
    {a : List (String × String)} {cs : List Node}
    (hmem : (p, Node.elem t a cs) ∈ allElems root)
    (hwf : wfElem (Node.elem t a cs) = true) :
    matchesOf root (strToLower t) ≠ [] := by
  unfold wfElem at hwf
  simp only [Bool.and_eq_true, beq_iff_eq, decide_eq_true_eq,
    Bool.not_eq_true'] at hwf
  obtain ⟨⟨hlower, hlen⟩, hdot⟩ := hwf
  refine resolves_of_mem hmem ?_
  unfold selMatches
  rw [hlower]
  cases hd : t.data with
  | nil =>
    have : t.length = 0 := by
      show t.data.length = 0
      rw [hd]; rfl
    omega
  | cons c rest =>
    have hc : ¬c = '.' := by
      intro hcc
      unfold strStartsWith at hdot
      rw [hd, hcc] at hdot
      simp [isHeadOf] at hdot
    split
    · rename_i r heq
      injection heq with h1 _
      exact absurd h1 hc
    · show (strToLower t == t) = true
      rw [hlower]
      simp

/-- Emission site (f): the constant `.c_button` selector resolves on any
element selected by that class. -/
theorem resolve_cbutton {root : Node} {p : Path} {n : Node}
    (hmem : (p, n) ∈ allElems root) (hcls : hasClass n "c_button" = true) :
    matchesOf root ".c_button" ≠ [] := by
  refine resolves_of_mem hmem ?_
  show selMatches ("." ++ "c_button") n = true
  rw [selMatches_dot]
  exact hcls

theorem fallback_resolves (root : Node) (p : Path) (ciOpt : Option ClassInfo)
    (selTag : String) (idx : Nat)
    (hci : ∀ ci, ciOpt = some ci → matchesOf root ("." ++ ci.selector) ≠ [])
    (htag : ciOpt = none → matchesOf root selTag ≠ []) :
    matchesOf root (fallbackNaming root p ciOpt selTag idx).2 ≠ [] := by
  unfold fallbackNaming
  dsimp only
  cases hclos : closestHeaderHeroCta root p with
  | some qm =>
    obtain ⟨q, m⟩ := qm
    dsimp only
    cases hpci : getPrimaryClass (attrN m "class") with
    | some pci =>
      dsimp only
      cases ciOpt with
      | some ci => exact hci ci rfl
      | none =>
        dsimp only
        have hanc : (q, m) ∈ selfAncestors root p :=
          List.mem_of_find?_eq_some hclos
        exact resolve_gp_ancestor hanc hpci
    | none =>
      dsimp only
      cases hmod : getContextModifier root p with
      | some mo =>
        dsimp only
        cases ciOpt with
        | some ci => exact hci ci rfl
        | none => exact htag rfl
      | none =>
        dsimp only
        cases ciOpt with
        | some ci => exact hci ci rfl
        | none => exact htag rfl
  | none =>
    dsimp only
    cases hmod : getContextModifier root p with
    | some mo =>
      dsimp only
      cases ciOpt with
      | some ci => exact hci ci rfl
      | none => exact htag rfl
    | none =>
      dsimp only
      cases ciOpt with
      | some ci => exact hci ci rfl
      | none => exact htag rfl

theorem headingPass_resolves (root : Node) (owned : List Path) :
    ∀ (hs : List (Path × Node)) (idx : Nat) (acc : List (String × FieldMapping)),
      (∀ x ∈ hs, x ∈ allElems root ∧ wfElem x.2 = true ∧
        ∃ t a cs, x.2 = Node.elem t a cs) →
      (∀ e ∈ acc, matchesOf root e.2.selector ≠ []) →
      ∀ e ∈ headingPass root owned hs idx acc,
        matchesOf root e.2.selector ≠ [] := by
  intro hs
  induction hs with
  | nil => intro idx acc _ hacc e he; exact hacc e he
  | cons pn rest ih =>
    obtain ⟨p, n⟩ := pn
    intro idx acc hhs hacc e he
    have hhead := hhs (p, n) (List.mem_cons_self _ _)
    have hrest : ∀ x ∈ rest, x ∈ allElems root ∧ wfElem x.2 = true ∧
        ∃ t a cs, x.2 = Node.elem t a cs :=
      fun x hx => hhs x (List.mem_cons_of_mem _ hx)
    rw [headingPass.eq_def] at he
    dsimp only at he
    split at he
    · exact ih _ _ hrest hacc e he
    · split at he
      · refine ih _ _ hrest ?_ e he
        intro e' he'
        rcases mem_upsert he' with h | h
        · exact hacc e' h
        · rw [h]
          dsimp only
          cases hci : getPrimaryClass (attrN n "class") with
          | some ci =>
            dsimp only
            by_cases hsw : (!(strStartsWith ci.fieldName "heading_")) = true
            · rw [if_pos hsw]
              exact resolve_gp_self hhead.1 hci
            · rw [if_neg hsw]
              refine fallback_resolves root p (some ci) _ idx ?_ ?_
              · intro ci' hci'
                injection hci' with h''
                rw [← h'']
                exact resolve_gp_self hhead.1 hci
              · intro hcontra; simp at hcontra
          | none =>
            dsimp only
            refine fallback_resolves root p none _ idx ?_ ?_
            · intro ci' hci'; simp at hci'
            · intro _
              rcases hhead.2.2 with ⟨t, a, cs, heq⟩
              have heq' : n = Node.elem t a cs := heq
              subst heq'
              dsimp only
              exact resolve_tag hhead.1 hhead.2.1
      · exact ih _ _ hrest hacc e he

theorem paragraphPass_resolves (root : Node) (owned : List Path) :
    ∀ (ps : List (Path × Node)) (acc : List (String × FieldMapping)),
      (∀ x ∈ ps, x ∈ allElems root) →
      (∀ e ∈ acc, matchesOf root e.2.selector ≠ []) →
      ∀ e ∈ paragraphPass root owned ps acc,
        matchesOf root e.2.selector ≠ [] := by
  intro ps
  induction ps with
  | nil => intro acc _ hacc e he; exact hacc e he
  | cons pn rest ih =>
    obtain ⟨p, n⟩ := pn
    intro acc hps hacc e he
    have hhead := hps (p, n) (List.mem_cons_self _ _)
    have hrest : ∀ x ∈ rest, x ∈ allElems root :=
      fun x hx => hps x (List.mem_cons_of_mem _ hx)
    rw [paragraphPass] at he
    split at he
    · exact ih _ hrest hacc e he
    · dsimp only at he
      split at he
      · rename_i ci hci
        split at he
        · refine ih _ hrest ?_ e he
          intro e' he'
          rcases mem_upsert he' with h | h
          · exact hacc e' h
          · rw [h]
            exact resolve_gp_self hhead hci
        · exact ih _ hrest hacc e he
      · exact ih _ hrest hacc e he

theorem imagePass_resolves (root : Node) (owned : List Path) :
    ∀ (imgs : List (Path × Node)) (acc : List (String × FieldMapping)),
      (∀ e ∈ acc, matchesOf root e.2.selector ≠ []) →
      ∀ e ∈ imagePass root owned imgs acc,
        matchesOf root e.2.selector ≠ [] := by
  intro imgs
  induction imgs with
  | nil => intro acc hacc e he; exact hacc e he
  | cons pn rest ih =>
    obtain ⟨p, n⟩ := pn
    intro acc hacc e he
    rw [imagePass] at he
    split at he
    · exact ih _ hacc e he
    · split at he
      · exact ih _ hacc e he
      · split at he
        · exact ih _ hacc e he
        · split at he
          · rename_i pci hpci
            refine ih _ ?_ e he
            intro e' he'
            rcases mem_upsert he' with h | h
            · exact hacc e' h
            · rw [h]
              exact resolve_gp_parent hpci
          · exact ih _ hacc e he

theorem buttonPass_resolves (root : Node) (owned : List Path) :
    ∀ (bs : List (Path × Node)) (acc : List (String × FieldMapping)),
      (∀ x ∈ bs, x ∈ allElems root ∧ hasClass x.2 "c_button" = true) →
      (∀ e ∈ acc, matchesOf root e.2.selector ≠ []) →
      ∀ e ∈ buttonPass root owned bs acc,
        matchesOf root e.2.selector ≠ [] := by
  intro bs
  induction bs with
  | nil => intro acc _ hacc e he; exact hacc e he
  | cons pn rest ih =>
    obtain ⟨p, n⟩ := pn
    intro acc hbs hacc e he
    have hhead := hbs (p, n) (List.mem_cons_self _ _)
    have hrest : ∀ x ∈ rest, x ∈ allElems root ∧ hasClass x.2 "c_button" = true :=
      fun x hx => hbs x (List.mem_cons_of_mem _ hx)
    rw [buttonPass] at he
    split at he
    · exact ih _ hrest hacc e he
    · dsimp only at he
      split at he
      · refine ih _ hrest ?_ e he
        intro e' he'
        rcases mem_upsert he' with h | h
        · exact hacc e' h
        · rw [h]
          exact resolve_cbutton hhead.1 hhead.2
      · exact ih _ hrest hacc e he

theorem mem_upsertAppend_elem {acc : List (String × List β)} {k : String}
    {v : β} {g : String × List β} {e : β} (hg : g ∈ upsertAppend acc k v)
    (he : e ∈ g.2) : (∃ g0 ∈ acc, e ∈ g0.2) ∨ e = v := by
  unfold upsertAppend at hg
  split at hg
  · rcases List.mem_map.mp hg with ⟨g0, hg0, hgg⟩
    by_cases hk : g0.1 = k
    · rw [if_pos hk] at hgg
      rw [← hgg] at he
      rcases List.mem_append.mp he with h | h
      · exact Or.inl ⟨g0, hg0, h⟩
      · simp only [List.mem_singleton] at h
        exact Or.inr h
    · rw [if_neg hk] at hgg
      exact Or.inl ⟨g0, hg0, hgg ▸ he⟩
  · rcases List.mem_append.mp hg with h | h
    · exact Or.inl ⟨g, h, he⟩
    · simp only [List.mem_singleton] at h
      rw [h] at he
      simp only [List.mem_singleton] at he
      exact Or.inr he

theorem buildGroups_inv (root : Node) :
    ∀ (wcs : List (Path × Node)) (acc : List (String × List (Path × Node))),
      (∀ x ∈ wcs, x ∈ allElems root) →
      (∀ g ∈ acc, ∀ e ∈ g.2, e ∈ allElems root ∧
        ∃ ci, getPrimaryClass (attrN e.2 "class") = some ci) →
      ∀ g ∈ buildGroups wcs acc, ∀ e ∈ g.2, e ∈ allElems root ∧
        ∃ ci, getPrimaryClass (attrN e.2 "class") = some ci := by
  intro wcs
  induction wcs with
  | nil => intro acc _ hacc g hg e he; exact hacc g hg e he
  | cons pn rest ih =>
    intro acc hmem hacc g hg e he
    have hhead : pn ∈ allElems root := hmem pn (List.mem_cons_self _ _)
    have hrest : ∀ x ∈ rest, x ∈ allElems root :=
      fun x hx => hmem x (List.mem_cons_of_mem _ hx)
    rw [buildGroups] at hg
    split at hg
    · rename_i pc hpc
      split at hg
      · refine ih _ hrest ?_ g hg e he
        intro g' hg' e' he'
        rcases mem_upsertAppend_elem hg' he' with h | h
        · rcases h with ⟨g0, hg0, he0⟩
          exact hacc g0 hg0 e' he0
        · rw [h]
          exact ⟨hhead, pc, hpc⟩
      · exact ih _ hrest hacc g hg e he
    · exact ih _ hrest hacc g hg e he

theorem processGroups_resolves (root : Node) :
    ∀ (groups : List (String × List (Path × Node)))
      (colls : List (String × CollectionMapping)) (owned : List Path),
      (∀ g ∈ groups, ∀ e ∈ g.2, e ∈ allElems root ∧
        ∃ ci, getPrimaryClass (attrN e.2 "class") = some ci) →
      (∀ e ∈ colls, matchesOf root e.2.selector ≠ []) →
      ∀ e ∈ (processGroups root groups colls owned).1,
        matchesOf root e.2.selector ≠ [] := by
  intro groups
  induction groups with
  | nil => intro colls owned _ hcolls e he; exact hcolls e he
  | cons g rest ih =>
    obtain ⟨className, elements⟩ := g
    intro colls owned hinv hcolls e he
    have hrest : ∀ g ∈ rest, ∀ e ∈ g.2, e ∈ allElems root ∧
        ∃ ci, getPrimaryClass (attrN e.2 "class") = some ci :=
      fun g hg => hinv g (List.mem_cons_of_mem _ hg)
    rcases elements with _ | ⟨⟨pp, nn⟩, tl⟩
    · rw [processGroups] at he
      split at he
      · dsimp only at he
        exact ih _ _ hrest hcolls e he
      · exact ih _ _ hrest hcolls e he
    · rw [processGroups] at he
      split at he
      · dsimp only at he
        split at he
        · exact ih _ _ hrest hcolls e he
        · refine ih _ _ hrest ?_ e he
          intro e' he'
          rcases mem_upsert he' with h | h
          · exact hcolls e' h
          · rw [h]
            dsimp only
            have hfirst := hinv (className, (pp, nn) :: tl)
              (List.mem_cons_self _ _) (pp, nn) (List.mem_cons_self _ _)
            rcases hfirst.2 with ⟨ci, hci⟩
            rw [hci]
            dsimp only
            exact resolve_gp_self hfirst.1 hci
      · exact ih _ _ hrest hcolls e he

/-- C2 (amended): every top-level field selector and every collection
container selector emitted by `detectEditableFields` resolves to at least
one element of the same (well-formed) tree; collection item-relative field
selectors are not covered — they can fail to resolve. -/
theorem c2_selectors_resolve (root : Node) (hwf : wfTree root = true) :
    (∀ k fm, (k, fm) ∈ (detectEditableFields root).fields →
      matchesOf root fm.selector ≠ []) ∧
    (∀ k cm, (k, cm) ∈ (detectEditableFields root).collections →
      matchesOf root cm.selector ≠ []) := by
  have hwfall : ∀ x ∈ allElems root, wfElem x.2 = true :=
    fun x hx => List.all_eq_true.mp hwf x hx
  constructor
  · intro k fm hmem
    unfold detectEditableFields at hmem
    dsimp only at hmem
    refine buttonPass_resolves root _ _ _ ?_ ?_ (k, fm) hmem
    · intro x hx
      have hall : x ∈ allElems root :=
        desc_sub_allElems (List.mem_of_mem_filter hx)
      refine ⟨hall, ?_⟩
      have hpred := List.of_mem_filter hx
      simp only [Bool.or_eq_true, Bool.and_eq_true] at hpred
      rcases hpred with (⟨_, h⟩ | ⟨_, h⟩) | h <;> exact h
    · refine imagePass_resolves root _ _ _ ?_
      refine paragraphPass_resolves root _ _ _ ?_ ?_
      · intro x hx
        exact desc_sub_allElems (List.mem_of_mem_filter hx)
      · refine headingPass_resolves root _ _ _ _ ?_ ?_
        · intro x hx
          have hall : x ∈ allElems root :=
            desc_sub_allElems (List.mem_of_mem_filter hx)
          refine ⟨hall, hwfall x hall, ?_⟩
          have hpred := List.of_mem_filter hx
          cases hx2 : x.2 with
          | elem t a cs => exact ⟨t, a, cs, rfl⟩
          | text s =>
            rw [hx2] at hpred
            simp [isHeadingTag, isTag] at hpred
        · intro e he; simp at he
  · intro k cm hmem
    unfold detectEditableFields at hmem
    dsimp only at hmem
    refine processGroups_resolves root _ _ _ ?_ ?_ (k, cm) hmem
    · refine buildGroups_inv root _ _ ?_ ?_
      · intro x hx
        exact List.mem_of_mem_filter hx
      · intro g hg; simp at hg
    · intro e he; simp at he

/-- C2 witness: the theorem at the story page — its collection container
selector `.story-card` resolves in the tree it was inferred from. -/
theorem c2_witness :
    wfTree storyTree = true ∧ matchesOf storyTree ".story-card" ≠ [] :=
  ⟨by decide,
    (c2_selectors_resolve storyTree (by decide)).2 "story_cards"
      ⟨".story-card",
        [("image", ".card-image"), ("title", ".card-title"),
          ("description", ".card-text")]⟩
      (by decide)⟩

/-- C2 counterexample: for two `team-item` siblings whose link is a
classless `NuxtLink`, inference emits the item-relative fallback selector
`a` — which matches nothing inside the item, so the extractor finds no
match for it and extracts an empty collection set. -/
theorem c2_counterexample :
    (detectEditableFields teamTree).collections =
        [("team_items", { selector := ".team-item", fields := [("link", "a")] })] ∧
    findDescOf [0] ((nodeAt [0] teamTree).getD (.text "")) "a" = [] ∧
    (extractContentFromHTML teamTree teamPM).collections = [] :=
  ⟨by decide, rfl, rfl⟩

end SeeMS
